import Mathlib

/-!
ListManager (uncrustify): an intrusive doubly-linked list of chunks.

Shallow embedding of `src/ListManager.h`.  Chunks are identified by natural
numbers (their addresses); a pointer is an `Option Nat`, `none` being
`nullptr`.  The manager's two fields `first` / `last` and the `next` / `prev`
fields of every chunk make up the state.  Every member function is a state
transformer in `Option`: the result `none` stands for a fault (a null pointer
was dereferenced).
-/

namespace Uncrustify

/-- A pointer to a chunk; `none` is `nullptr`. -/
abbrev Ptr := Option Nat

/-- The manager (`first`, `last`) together with the link fields of all chunks. -/
structure ListManager where
  first : Ptr
  last : Ptr
  next : Nat → Ptr
  prev : Nat → Ptr

/-- Overwrite one chunk's link field. -/
def setField (f : Nat → Ptr) (c : Nat) (v : Ptr) : Nat → Ptr :=
  fun x => if x = c then v else f x

namespace ListManager

/-- The read `p->next`; faults on `nullptr`. -/
def ldNext (s : ListManager) : Ptr → Option Ptr
  | none => none
  | some c => some (s.next c)

/-- The read `p->prev`; faults on `nullptr`. -/
def ldPrev (s : ListManager) : Ptr → Option Ptr
  | none => none
  | some c => some (s.prev c)

/-- The write `p->next = v`; faults on `nullptr`. -/
def stNext (s : ListManager) : Ptr → Ptr → Option ListManager
  | none, _ => none
  | some c, v => some { s with next := setField s.next c v }

/-- The write `p->prev = v`; faults on `nullptr`. -/
def stPrev (s : ListManager) : Ptr → Ptr → Option ListManager
  | none, _ => none
  | some c, v => some { s with prev := setField s.prev c v }

/-- The constructor `ListManager()`, with every chunk still unlinked. -/
def empty : ListManager :=
  { first := none, last := none, next := fun _ => none, prev := fun _ => none }

end ListManager

/-- Member `GetHead`: `return(first)`. -/
def GetHead (s : ListManager) : Ptr := s.first

/-- Member `GetTail`: `return(last)`. -/
def GetTail (s : ListManager) : Ptr := s.last

/-- Member `GetNext`: `return((ref != nullptr) ? ref->next : nullptr)`. -/
def GetNext (s : ListManager) (ref : Ptr) : Ptr :=
  match ref with
  | some c => s.next c
  | none => none

/-- Member `GetPrev`: `return((ref != nullptr) ? ref->prev : nullptr)`. -/
def GetPrev (s : ListManager) (ref : Ptr) : Ptr :=
  match ref with
  | some c => s.prev c
  | none => none

/-- Member `Pop(obj)`: remove an element from the list. -/
def Pop (obj : Ptr) (s : ListManager) : Option ListManager :=
  if obj ≠ none then do
    -- if (first == obj) { first = obj->next; }
    let s ← (if s.first = obj then do
               let n ← s.ldNext obj
               pure { s with first := n }
             else pure s)
    -- if (last == obj) { last = obj->prev; }
    let s ← (if s.last = obj then do
               let p ← s.ldPrev obj
               pure { s with last := p }
             else pure s)
    -- if (obj->next != nullptr) { obj->next->prev = obj->prev; }
    let n ← s.ldNext obj
    let s ← (if n ≠ none then do
               let n ← s.ldNext obj
               let p ← s.ldPrev obj
               s.stPrev n p
             else pure s)
    -- if (obj->prev != nullptr) { obj->prev->next = obj->next; }
    let p ← s.ldPrev obj
    let s ← (if p ≠ none then do
               let p ← s.ldPrev obj
               let n ← s.ldNext obj
               s.stNext p n
             else pure s)
    -- obj->next = nullptr; obj->prev = nullptr;
    let s ← s.stNext obj none
    s.stPrev obj none
  else pure s

/-- Member `AddAfter(obj, ref)`: add an element after a reference position. -/
def AddAfter (obj ref : Ptr) (s : ListManager) : Option ListManager :=
  if obj ≠ none ∧ ref ≠ none then do
    let s ← Pop obj s
    -- obj->next = ref->next; obj->prev = ref;
    let rn ← s.ldNext ref
    let s ← s.stNext obj rn
    let s ← s.stPrev obj ref
    -- if (ref->next != nullptr) { ref->next->prev = obj; } else { last = obj; }
    let rn ← s.ldNext ref
    let s ← (if rn ≠ none then do
               let rn ← s.ldNext ref
               s.stPrev rn obj
             else pure { s with last := obj })
    -- ref->next = obj;
    s.stNext ref obj
  else pure s

/-- Member `AddBefore(obj, ref)`: add an element before a reference position. -/
def AddBefore (obj ref : Ptr) (s : ListManager) : Option ListManager :=
  if obj ≠ none ∧ ref ≠ none then do
    let s ← Pop obj s
    -- obj->next = ref; obj->prev = ref->prev;
    let s ← s.stNext obj ref
    let rp ← s.ldPrev ref
    let s ← s.stPrev obj rp
    -- if (ref->prev != nullptr) { ref->prev->next = obj; } else { first = obj; }
    let rp ← s.ldPrev ref
    let s ← (if rp ≠ none then do
               let rp ← s.ldPrev ref
               s.stNext rp obj
             else pure { s with first := obj })
    -- ref->prev = obj;
    s.stPrev ref obj
  else pure s

/-- Member `Swap(obj1, obj2)`: swap two elements of a list. -/
def Swap (obj1 obj2 : Ptr) (s : ListManager) : Option ListManager :=
  if obj1 ≠ none ∧ obj2 ≠ none then do
    let p1 ← s.ldPrev obj1
    if p1 = obj2 then do
      let s ← Pop obj1 s
      AddBefore obj1 obj2 s
    else do
      let p2 ← s.ldPrev obj2
      if p2 = obj1 then do
        let s ← Pop obj2 s
        AddBefore obj2 obj1 s
      else do
        let prev1 ← s.ldPrev obj1
        let s ← Pop obj1 s
        let prev2 ← s.ldPrev obj2
        let s ← Pop obj2 s
        let s ← AddAfter obj1 prev2 s
        AddAfter obj2 prev1 s
  else pure s

/-- Member `AddTail(obj)`: add an element to the tail of the list. -/
def AddTail (obj : Ptr) (s : ListManager) : Option ListManager := do
  -- obj->next = nullptr; obj->prev = last;
  let s ← s.stNext obj none
  let s ← s.stPrev obj s.last
  if s.last = none then
    -- last = obj; first = obj;   and then   last = obj;
    let s : ListManager := { s with last := obj }
    let s : ListManager := { s with first := obj }
    pure { s with last := obj }
  else do
    -- last->next = obj;   and then   last = obj;
    let s ← s.stNext s.last obj
    pure { s with last := obj }

/-- Member `AddHead(obj)`: add an element to the head of the list. -/
def AddHead (obj : Ptr) (s : ListManager) : Option ListManager := do
  -- obj->next = first; obj->prev = nullptr;
  let s ← s.stNext obj s.first
  let s ← s.stPrev obj none
  if s.first = none then
    -- last = obj; first = obj;   and then   first = obj;
    let s : ListManager := { s with last := obj }
    let s : ListManager := { s with first := obj }
    pure { s with first := obj }
  else do
    -- first->prev = obj;   and then   first = obj;
    let s ← s.stPrev s.first obj
    pure { s with first := obj }

/-- The chunks met when following `next` from `p`, at most `fuel` of them. -/
def chunksFrom (s : ListManager) : Nat → Ptr → List Nat
  | 0, _ => []
  | _ + 1, none => []
  | k + 1, some c => c :: chunksFrom s k (s.next c)

/-! Abstract chunk sequences and the representation predicate. -/

/-- The chunk that follows `c` in the sequence, if any. -/
def nextIn : List Nat → Nat → Ptr
  | [], _ => none
  | a :: t, c => if c = a then t.head? else nextIn t c

/-- The chunk that precedes `c` in the sequence, if any. -/
def prevIn : List Nat → Nat → Ptr
  | [], _ => none
  | a :: t, c => if t.head? = some c then some a else prevIn t c

/-- The state `s` is the list with chunk sequence `L`: `L` has no duplicates,
head and tail are the ends of `L`, the chunk at position `i` has the chunk at
position `i + 1` as its next and the chunk at position `i - 1` as its prev
(null at the ends), and every chunk outside `L` has both links null. -/
def Repr (s : ListManager) (L : List Nat) : Prop :=
  L.Nodup ∧ s.first = L.head? ∧ s.last = L.getLast? ∧
    (∀ i, ∀ h : i < L.length,
      s.next (L.get ⟨i, h⟩) = L.get? (i + 1) ∧
      s.prev (L.get ⟨i, h⟩) = if i = 0 then none else L.get? (i - 1)) ∧
    (∀ c, c ∉ L → s.next c = none ∧ s.prev c = none)

/-- A well-formed list state: it is the list of some duplicate-free sequence. -/
def WellFormed (s : ListManager) : Prop := ∃ L, Repr s L

/-- The same as `Repr`, with the links given by `nextIn` and `prevIn`. -/
def Threads (s : ListManager) (L : List Nat) : Prop :=
  L.Nodup ∧ s.first = L.head? ∧ s.last = L.getLast? ∧
    (∀ c, s.next c = nextIn L c) ∧ (∀ c, s.prev c = prevIn L c)

/-- The state that threads the sequence `L`. -/
def ofList (L : List Nat) : ListManager :=
  { first := L.head?, last := L.getLast?, next := nextIn L, prev := prevIn L }

/-- The sequence `L` with `c` put right after the chunk `ref`. -/
def insertAfter (ref c : Nat) : List Nat → List Nat
  | [] => []
  | a :: t => if a = ref then a :: c :: t else a :: insertAfter ref c t

/-- The sequence `L` with `c` put right before the chunk `ref`. -/
def insertBefore (ref c : Nat) : List Nat → List Nat
  | [] => []
  | a :: t => if a = ref then c :: a :: t else a :: insertBefore ref c t

/-- The state right after `Pop(c)`, in closed form (`Pop_some` proves it is
what the code returns). -/
def popped (c : Nat) (s : ListManager) : ListManager :=
  { first := if s.first = some c then s.next c else s.first
    last := if s.last = some c then s.prev c else s.last
    next := fun x => if x = c then none
              else if s.prev c = some x then s.next c else s.next x
    prev := fun x => if x = c then none
              else if s.next c = some x then s.prev c else s.prev x }

/-- The state after the linking part of `AddAfter(c, ref)` (what follows its
call of `Pop`), in closed form (`AddAfter_some`). -/
def linkedAfter (c r : Nat) (s : ListManager) : ListManager :=
  { first := s.first
    last := if s.next r = none then some c else s.last
    next := fun x => if x = r then some c else if x = c then s.next r else s.next x
    prev := fun x => if s.next r = some x then some c
              else if x = c then some r else s.prev x }

/-- The state after the linking part of `AddBefore(c, ref)`, in closed form
(`AddBefore_some`). -/
def linkedBefore (c r : Nat) (s : ListManager) : ListManager :=
  { first := if s.prev r = none then some c else s.first
    last := s.last
    next := fun x => if s.prev r = some x then some c
              else if x = c then some r else s.next x
    prev := fun x => if x = r then some c else if x = c then s.prev r else s.prev x }

/-- The state after `AddTail(c)`, in closed form (`AddTail_some`). -/
def tailed (c : Nat) (s : ListManager) : ListManager :=
  { first := if s.last = none then some c else s.first
    last := some c
    next := fun x => if s.last = some x then some c else if x = c then none else s.next x
    prev := fun x => if x = c then s.last else s.prev x }

/-- The state after `AddHead(c)`, in closed form (`AddHead_some`). -/
def headed (c : Nat) (s : ListManager) : ListManager :=
  { first := some c
    last := if s.first = none then some c else s.last
    next := fun x => if x = c then s.first else s.next x
    prev := fun x => if s.first = some x then some c else if x = c then none else s.prev x }

/-- The chunk `c` is threaded in the list: it is the head or it has a
predecessor.  On a well-formed state this is membership in the sequence. -/
def InList (s : ListManager) (c : Nat) : Bool :=
  decide (s.first = some c) || decide (s.prev c ≠ none)

/-- One call of a mutating member function. -/
inductive Op where
  | addTail (obj : Ptr)
  | addHead (obj : Ptr)
  | addAfter (obj ref : Ptr)
  | addBefore (obj ref : Ptr)
  | pop (obj : Ptr)
  | swap (obj1 obj2 : Ptr)

/-- Run one call. -/
def runOp : Op → ListManager → Option ListManager
  | .addTail obj, s => AddTail obj s
  | .addHead obj, s => AddHead obj s
  | .addAfter obj ref, s => AddAfter obj ref s
  | .addBefore obj ref, s => AddBefore obj ref s
  | .pop obj, s => Pop obj s
  | .swap obj1 obj2, s => Swap obj1 obj2 s

/-- Run a sequence of calls, left to right; a fault stops the run. -/
def runOps : List Op → ListManager → Option ListManager
  | [], s => some s
  | op :: rest, s => (runOp op s).bind (runOps rest)

/-- The stated list invariants: an in-list chunk is the prev of its next and
the next of its prev, the head has no prev, the tail has no next, and no chunk
is in the list iff head and tail are both null. -/
def Inv (s : ListManager) : Prop :=
  (∀ c, InList s c = true →
    (∀ n, s.next c = some n → s.prev n = some c) ∧
    (∀ p, s.prev c = some p → s.next p = some c)) ∧
  (∀ h, s.first = some h → s.prev h = none) ∧
  (∀ t, s.last = some t → s.next t = none) ∧
  ((∀ c, InList s c = false) ↔ (s.first = none ∧ s.last = none))

/-- The precondition of one call: a pushed chunk is a chunk that is not in the
list; the reference of an insertion is in the list and is not the inserted
chunk (or an argument is null, and the call does nothing). -/
def opPre : Op → ListManager → Bool
  | .addTail obj, s => match obj with
    | some c => !InList s c
    | none => false
  | .addHead obj, s => match obj with
    | some c => !InList s c
    | none => false
  | .addAfter obj ref, s => match obj, ref with
    | some c, some r => decide (c ≠ r) && InList s r
    | _, _ => true
  | .addBefore obj ref, s => match obj, ref with
    | some c, some r => decide (c ≠ r) && InList s r
    | _, _ => true
  | .pop _, _ => true
  | .swap _ _, _ => true

/-- Every call of the sequence is made with its precondition met, when the
sequence is run from `s` (nothing is asked of the calls after a fault). -/
def okRun : List Op → ListManager → Bool
  | [], _ => true
  | op :: rest, s => opPre op s &&
      (match runOp op s with
       | some s' => okRun rest s'
       | none => true)

/-- The sequence `L` with the chunks `a` and `b` exchanged in position and
every other chunk left where it is. -/
def exchange (a b : Nat) (L : List Nat) : List Nat :=
  L.map (fun x => if x = a then b else if x = b then a else x)

/-- The words of the specification for an adjacent swap, "detach `a`, reinsert
it immediately before `b`": `Pop(a)` followed by `AddBefore(a, b)`. -/
def detachReinsertBefore (a b : Ptr) (s : ListManager) : Option ListManager :=
  (Pop a s).bind (AddBefore a b)

/-! Facts about `nextIn` and `prevIn`. -/

theorem nextIn_cons (a : Nat) (t : List Nat) (c : Nat) :
    nextIn (a :: t) c = if c = a then t.head? else nextIn t c := rfl

theorem prevIn_cons (a : Nat) (t : List Nat) (c : Nat) :
    prevIn (a :: t) c = if t.head? = some c then some a else prevIn t c := rfl

theorem nextIn_of_not_mem {L : List Nat} {c : Nat} (h : c ∉ L) : nextIn L c = none := by
  induction L with
  | nil => rfl
  | cons a t ih =>
    simp only [List.mem_cons, not_or] at h
    simp [nextIn, h.1, ih h.2]

theorem prevIn_of_not_mem {L : List Nat} {c : Nat} (h : c ∉ L) : prevIn L c = none := by
  induction L with
  | nil => rfl
  | cons a t ih =>
    simp only [List.mem_cons, not_or] at h
    have : t.head? ≠ some c := fun hh => h.2 (List.mem_of_mem_head? hh)
    simp [prevIn, this, ih h.2]

theorem nextIn_mem {L : List Nat} {c n : Nat} (h : nextIn L c = some n) : n ∈ L := by
  induction L with
  | nil => simp [nextIn] at h
  | cons a t ih =>
    simp only [nextIn] at h
    split_ifs at h with hc
    · exact List.mem_cons_of_mem _ (List.mem_of_mem_head? h)
    · exact List.mem_cons_of_mem _ (ih h)

theorem prevIn_mem {L : List Nat} {c p : Nat} (h : prevIn L c = some p) : p ∈ L := by
  induction L with
  | nil => simp [prevIn] at h
  | cons a t ih =>
    simp only [prevIn] at h
    split_ifs at h with hc
    · simp at h; simp [h]
    · exact List.mem_cons_of_mem _ (ih h)

theorem prevIn_head {L : List Nat} {c : Nat} (hL : L.Nodup) (h : L.head? = some c) :
    prevIn L c = none := by
  cases L with
  | nil => rfl
  | cons a t =>
    simp at h; subst h
    have ha : a ∉ t := (List.nodup_cons.mp hL).1
    have : t.head? ≠ some a := fun hh => ha (List.mem_of_mem_head? hh)
    simp [prevIn, this, prevIn_of_not_mem ha]

theorem head?_erase (L : List Nat) (c : Nat) :
    (L.erase c).head? = if L.head? = some c then nextIn L c else L.head? := by
  cases L with
  | nil => simp
  | cons b u =>
    by_cases hb : b = c
    · subst hb; simp [nextIn]
    · simp [List.erase_cons_tail, hb]

theorem nextIn_erase {L : List Nat} (hL : L.Nodup) (c x : Nat) :
    nextIn (L.erase c) x =
      if x = c then none else if prevIn L c = some x then nextIn L c else nextIn L x := by
  induction L with
  | nil => simp [nextIn, prevIn]
  | cons a t ih =>
    have ha : a ∉ t := (List.nodup_cons.mp hL).1
    have ht : t.Nodup := (List.nodup_cons.mp hL).2
    by_cases hac : a = c
    · subst hac
      rw [List.erase_cons_head, prevIn_head hL rfl]
      by_cases hx : x = a
      · subst hx; simp [nextIn_of_not_mem ha]
      · simp [nextIn, hx]
    · have hne : ¬ (a == c) = true := by simpa using hac
      have hca : c ≠ a := fun h => hac h.symm
      rw [List.erase_cons_tail hne]
      have hpa : prevIn t c ≠ some a := fun h => ha (prevIn_mem h)
      by_cases hx : x = a
      · subst hx
        have hxc : x ≠ c := hac
        simp only [nextIn, prevIn, hxc, hca, if_true, if_false, head?_erase]
        by_cases hh : t.head? = some c
        · simp [hh]
        · simp [hh, hpa]
      · simp only [nextIn, prevIn, hx, hca, if_false, ih ht]
        by_cases hh : t.head? = some c
        · have hax : a ≠ x := fun h => hx h.symm
          simp [hh, prevIn_head ht hh, hax]
        · simp [hh]

theorem prevIn_of_nextIn {L : List Nat} (hL : L.Nodup) {c n : Nat}
    (h : nextIn L c = some n) : prevIn L n = some c := by
  induction L with
  | nil => simp [nextIn] at h
  | cons a t ih =>
    have ht : t.Nodup := (List.nodup_cons.mp hL).2
    simp only [nextIn] at h
    simp only [prevIn]
    split_ifs at h with hc
    · subst hc; simp [h]
    · have hp := ih ht h
      have hh : t.head? ≠ some n := fun hh => by
        rw [prevIn_head ht hh] at hp; cases hp
      simp [hh, hp]

theorem nextIn_of_prevIn {L : List Nat} (hL : L.Nodup) {c n : Nat}
    (h : prevIn L n = some c) : nextIn L c = some n := by
  induction L with
  | nil => simp [prevIn] at h
  | cons a t ih =>
    have ha : a ∉ t := (List.nodup_cons.mp hL).1
    have ht : t.Nodup := (List.nodup_cons.mp hL).2
    simp only [prevIn] at h
    simp only [nextIn]
    split_ifs at h with hh
    · simp at h; subst h; simp [hh]
    · have hca : c ≠ a := fun e => ha (e ▸ prevIn_mem h)
      simp [hca, ih ht h]

theorem prevIn_isSome {L : List Nat} {c : Nat} (hc : c ∈ L) (hh : L.head? ≠ some c) :
    ∃ p, prevIn L c = some p := by
  induction L with
  | nil => simp at hc
  | cons a t ih =>
    have hca : c ≠ a := fun e => hh (by simp [e])
    have hct : c ∈ t := by
      rcases List.mem_cons.mp hc with h | h
      · exact absurd h hca
      · exact h
    simp only [prevIn]
    by_cases h2 : t.head? = some c
    · exact ⟨a, by simp [h2]⟩
    · obtain ⟨p, hp⟩ := ih hct h2
      exact ⟨p, by simp [h2, hp]⟩

theorem nextIn_ne_self {L : List Nat} (hL : L.Nodup) (c : Nat) : nextIn L c ≠ some c := by
  intro h
  have h2 := prevIn_of_nextIn hL h
  induction L with
  | nil => simp [nextIn] at h
  | cons a t ih =>
    have ha : a ∉ t := (List.nodup_cons.mp hL).1
    have ht : t.Nodup := (List.nodup_cons.mp hL).2
    simp only [nextIn] at h
    split_ifs at h with hc
    · subst hc; exact ha (List.mem_of_mem_head? h)
    · exact ih ht h (prevIn_of_nextIn ht h)

theorem head?_ne_of_nextIn {L : List Nat} (hL : L.Nodup) {c x : Nat}
    (h : nextIn L c = some x) : L.head? ≠ some x := by
  intro hh
  have h1 := prevIn_of_nextIn hL h
  rw [prevIn_head hL hh] at h1
  cases h1

theorem prevIn_erase {L : List Nat} (hL : L.Nodup) (c x : Nat) :
    prevIn (L.erase c) x =
      if x = c then none else if nextIn L c = some x then prevIn L c else prevIn L x := by
  induction L with
  | nil => simp [nextIn, prevIn]
  | cons a t ih =>
    have ha : a ∉ t := (List.nodup_cons.mp hL).1
    have ht : t.Nodup := (List.nodup_cons.mp hL).2
    by_cases hac : a = c
    · subst hac
      rw [List.erase_cons_head, prevIn_head hL rfl]
      by_cases hx : x = a
      · subst hx; simp [prevIn_of_not_mem ha]
      · by_cases hh : t.head? = some x
        · simp [nextIn, prevIn, hx, hh, prevIn_head ht hh]
        · simp [nextIn, prevIn, hx, hh]
    · have hne : ¬ (a == c) = true := by simpa using hac
      have hca : c ≠ a := fun h => hac h.symm
      rw [List.erase_cons_tail hne]
      simp only [nextIn, prevIn, hca, if_false, head?_erase, ih ht]
      by_cases hx : x = c
      · subst hx
        have h1 : nextIn t x ≠ some x := nextIn_ne_self ht x
        by_cases hh : t.head? = some x
        · simp [hh, h1]
        · simp [hh]
      · have hcx : c ≠ x := fun h => hx h.symm
        by_cases hh : t.head? = some c
        · by_cases h2 : nextIn t c = some x
          · simp [hh, h2, hx]
          · simp [hh, h2, hx, hcx]
        · by_cases h2 : nextIn t c = some x
          · have h3 := head?_ne_of_nextIn ht h2
            simp [hh, h2, hx, h3]
          · simp [hh, h2, hx]

theorem nextIn_get {L : List Nat} (hL : L.Nodup) (i : Nat) (h : i < L.length) :
    nextIn L (L.get ⟨i, h⟩) = L.get? (i + 1) := by
  induction L generalizing i with
  | nil => simp at h
  | cons a t ih =>
    have ha : a ∉ t := (List.nodup_cons.mp hL).1
    have ht : t.Nodup := (List.nodup_cons.mp hL).2
    cases i with
    | zero => cases t <;> simp [nextIn]
    | succ j =>
      have hj : j < t.length := by simpa using h
      have hne : t.get ⟨j, hj⟩ ≠ a := fun e => ha (e ▸ List.get_mem t j hj)
      have := ih ht j hj
      simp only [List.get_cons_succ, nextIn, hne, if_false, this, List.get?_cons_succ]

theorem prevIn_get {L : List Nat} (hL : L.Nodup) (i : Nat) (h : i < L.length) :
    prevIn L (L.get ⟨i, h⟩) = if i = 0 then none else L.get? (i - 1) := by
  induction L generalizing i with
  | nil => simp at h
  | cons a t ih =>
    have ht : t.Nodup := (List.nodup_cons.mp hL).2
    cases i with
    | zero => simpa using prevIn_head hL rfl
    | succ j =>
      have hj : j < t.length := by simpa using h
      have h1 := ih ht j hj
      simp only [List.get_cons_succ, prevIn_cons]
      cases j with
      | zero =>
        have : t.head? = some (t.get ⟨0, hj⟩) := by
          cases t with
          | nil => simp at hj
          | cons b u => simp
        simp [this]
      | succ k =>
        have hk : k < t.length := by omega
        have h2 : t.get? k = some (t.get ⟨k, hk⟩) := List.get?_eq_get hk
        have hh : t.head? ≠ some (t.get ⟨k + 1, hj⟩) := fun e => by
          rw [prevIn_head ht e] at h1
          simp [h2] at h1
          omega
        simp only [hh, if_false, h1]
        simp

theorem repr_iff_threads (s : ListManager) (L : List Nat) : Repr s L ↔ Threads s L := by
  constructor
  · rintro ⟨hL, hf, hl, hi, ho⟩
    refine ⟨hL, hf, hl, fun c => ?_, fun c => ?_⟩
    · by_cases hc : c ∈ L
      · obtain ⟨⟨i, h⟩, rfl⟩ := List.mem_iff_get.mp hc
        rw [(hi i h).1, nextIn_get hL]
      · rw [(ho c hc).1, nextIn_of_not_mem hc]
    · by_cases hc : c ∈ L
      · obtain ⟨⟨i, h⟩, rfl⟩ := List.mem_iff_get.mp hc
        rw [(hi i h).2, prevIn_get hL]
      · rw [(ho c hc).2, prevIn_of_not_mem hc]
  · rintro ⟨hL, hf, hl, hn, hp⟩
    refine ⟨hL, hf, hl, fun i h => ⟨?_, ?_⟩, fun c hc => ⟨?_, ?_⟩⟩
    · rw [hn, nextIn_get hL]
    · rw [hp, prevIn_get hL]
    · rw [hn, nextIn_of_not_mem hc]
    · rw [hp, prevIn_of_not_mem hc]

theorem getLast?_cons_of_ne_nil (a : Nat) {t : List Nat} (h : t ≠ []) :
    (a :: t).getLast? = t.getLast? := by
  cases t with
  | nil => exact absurd rfl h
  | cons b u => exact List.getLast?_cons_cons

theorem getLast?_erase {L : List Nat} (hL : L.Nodup) (c : Nat) :
    (L.erase c).getLast? = if L.getLast? = some c then prevIn L c else L.getLast? := by
  induction L with
  | nil => simp
  | cons a t ih =>
    have ha : a ∉ t := (List.nodup_cons.mp hL).1
    have ht : t.Nodup := (List.nodup_cons.mp hL).2
    by_cases hac : a = c
    · subst hac
      rw [List.erase_cons_head, prevIn_head hL rfl]
      cases t with
      | nil => simp
      | cons b u =>
        have hb : (b :: u).getLast? ≠ some a := fun h => ha (List.mem_of_getLast?_eq_some h)
        rw [List.getLast?_cons_cons]
        simp [hb]
    · have hne : ¬ (a == c) = true := by simpa using hac
      rw [List.erase_cons_tail hne, List.getLast?_cons, List.getLast?_cons, ih ht]
      by_cases hl : t.getLast? = some c
      · have hc : c ∈ t := List.mem_of_getLast?_eq_some hl
        rw [prevIn_cons]
        by_cases hh : t.head? = some c
        · simp [hl, hh, prevIn_head ht hh]
        · obtain ⟨p, hp⟩ := prevIn_isSome hc hh
          simp [hl, hh, hp]
      · rcases hg : t.getLast? with _ | z
        · simp [hac]
        · have hz : z ≠ c := fun e => hl (by rw [hg, e])
          simp [hz]

theorem threads_popped {s : ListManager} {L : List Nat} (h : Threads s L) (c : Nat) :
    Threads (popped c s) (L.erase c) := by
  obtain ⟨hL, hf, hl, hn, hp⟩ := h
  refine ⟨hL.erase c, ?_, ?_, ?_, ?_⟩
  · simp only [popped, hf, hn, head?_erase]
  · simp only [popped, hl, hp, getLast?_erase hL]
  · intro x; simp only [popped, hn, hp, nextIn_erase hL]
  · intro x; simp only [popped, hn, hp, prevIn_erase hL]

/-! Effect of each member function on the fields. -/

theorem ListManager.ext_links {a b : ListManager} (h1 : a.first = b.first)
    (h2 : a.last = b.last) (h3 : ∀ x, a.next x = b.next x)
    (h4 : ∀ x, a.prev x = b.prev x) : a = b := by
  cases a; cases b; simp only [ListManager.mk.injEq]
  exact ⟨h1, h2, funext h3, funext h4⟩

theorem Pop_none (s : ListManager) : Pop none s = some s := by
  simp [Pop]

theorem Pop_some (c : Nat) (s : ListManager) :
    Pop (some c) s = some (popped c s) := by
  have h : ∃ s', Pop (some c) s = some s' ∧
      s'.first = (if s.first = some c then s.next c else s.first) ∧
      s'.last = (if s.last = some c then s.prev c else s.last) ∧
      (∀ x, s'.next x = if x = c then none
                  else if s.prev c = some x then s.next c else s.next x) ∧
      (∀ x, s'.prev x = if x = c then none
                  else if s.next c = some x then s.prev c else s.prev x) := by
    rcases hn : s.next c with _ | n <;> rcases hp : s.prev c with _ | p <;>
      by_cases h1 : s.first = some c <;> by_cases h2 : s.last = some c <;>
      simp [Pop, ListManager.ldNext, ListManager.ldPrev, ListManager.stNext,
        ListManager.stPrev, h1, h2, hn, hp, bind, pure, Option.bind, setField] <;>
      (try constructor) <;> intro x <;> simp only [@eq_comm _ x]
  obtain ⟨s', h0, h1, h2, h3, h4⟩ := h
  rw [h0]
  exact congrArg some (ListManager.ext_links h1 h2 h3 h4)

theorem AddAfter_some (c r : Nat) (s : ListManager) :
    AddAfter (some c) (some r) s = some (linkedAfter c r (popped c s)) := by
  have h : ∃ s', AddAfter (some c) (some r) s = some s' ∧
      s'.first = (linkedAfter c r (popped c s)).first ∧
      s'.last = (linkedAfter c r (popped c s)).last ∧
      (∀ x, s'.next x = (linkedAfter c r (popped c s)).next x) ∧
      (∀ x, s'.prev x = (linkedAfter c r (popped c s)).prev x) := by
    simp only [AddAfter, Pop_some]
    generalize popped c s = s1
    rcases hn : s1.next r with _ | n <;>
      simp [ListManager.ldNext, ListManager.ldPrev, ListManager.stNext,
        ListManager.stPrev, hn, bind, pure, Option.bind, setField, linkedAfter]
    intro x; simp only [@eq_comm _ x]
  obtain ⟨s', h0, h1, h2, h3, h4⟩ := h
  rw [h0]
  exact congrArg some (ListManager.ext_links h1 h2 h3 h4)

theorem AddBefore_some (c r : Nat) (s : ListManager) :
    AddBefore (some c) (some r) s = some (linkedBefore c r (popped c s)) := by
  have h : ∃ s', AddBefore (some c) (some r) s = some s' ∧
      s'.first = (linkedBefore c r (popped c s)).first ∧
      s'.last = (linkedBefore c r (popped c s)).last ∧
      (∀ x, s'.next x = (linkedBefore c r (popped c s)).next x) ∧
      (∀ x, s'.prev x = (linkedBefore c r (popped c s)).prev x) := by
    simp only [AddBefore, Pop_some]
    generalize popped c s = s1
    rcases hn : s1.prev r with _ | n <;>
      simp [ListManager.ldNext, ListManager.ldPrev, ListManager.stNext,
        ListManager.stPrev, hn, bind, pure, Option.bind, setField, linkedBefore]
    intro x; simp only [@eq_comm _ x]
  obtain ⟨s', h0, h1, h2, h3, h4⟩ := h
  rw [h0]
  exact congrArg some (ListManager.ext_links h1 h2 h3 h4)

theorem AddTail_some (c : Nat) (s : ListManager) :
    AddTail (some c) s = some (tailed c s) := by
  have h : ∃ s', AddTail (some c) s = some s' ∧
      s'.first = (tailed c s).first ∧ s'.last = (tailed c s).last ∧
      (∀ x, s'.next x = (tailed c s).next x) ∧
      (∀ x, s'.prev x = (tailed c s).prev x) := by
    rcases hn : s.last with _ | n <;>
      simp [AddTail, ListManager.ldNext, ListManager.ldPrev, ListManager.stNext,
        ListManager.stPrev, hn, bind, pure, Option.bind, setField, tailed]
    intro x; simp only [@eq_comm _ x]
  obtain ⟨s', h0, h1, h2, h3, h4⟩ := h
  rw [h0]
  exact congrArg some (ListManager.ext_links h1 h2 h3 h4)

theorem AddHead_some (c : Nat) (s : ListManager) :
    AddHead (some c) s = some (headed c s) := by
  have h : ∃ s', AddHead (some c) s = some s' ∧
      s'.first = (headed c s).first ∧ s'.last = (headed c s).last ∧
      (∀ x, s'.next x = (headed c s).next x) ∧
      (∀ x, s'.prev x = (headed c s).prev x) := by
    rcases hn : s.first with _ | n <;>
      simp [AddHead, ListManager.ldNext, ListManager.ldPrev, ListManager.stNext,
        ListManager.stPrev, hn, bind, pure, Option.bind, setField, headed]
    intro x; simp only [@eq_comm _ x]
  obtain ⟨s', h0, h1, h2, h3, h4⟩ := h
  rw [h0]
  exact congrArg some (ListManager.ext_links h1 h2 h3 h4)

/-! Sequence-level effect of the linking steps. -/

theorem head?_insertAfter (r c : Nat) (M : List Nat) :
    (insertAfter r c M).head? = M.head? := by
  cases M with
  | nil => rfl
  | cons a t => by_cases h : a = r <;> simp [insertAfter, h]

theorem insertAfter_eq_append {r c : Nat} {M : List Nat} (hr : r ∈ M) :
    ∃ l1 l2, M = l1 ++ r :: l2 ∧ r ∉ l1 ∧ insertAfter r c M = l1 ++ r :: c :: l2 := by
  induction M with
  | nil => simp at hr
  | cons a t ih =>
    by_cases h : a = r
    · subst h; exact ⟨[], t, rfl, by simp, by simp [insertAfter]⟩
    · have hrt : r ∈ t := by
        rcases List.mem_cons.mp hr with e | e
        · exact absurd e.symm h
        · exact e
      obtain ⟨l1, l2, h1, h2, h3⟩ := ih hrt
      refine ⟨a :: l1, l2, by simp [h1], ?_, by simp [insertAfter, h, h3]⟩
      simp only [List.mem_cons, not_or]
      exact ⟨fun e => h e.symm, h2⟩

theorem nodup_insertAfter {r c : Nat} {M : List Nat} (hM : M.Nodup) (hc : c ∉ M)
    (hr : r ∈ M) : (insertAfter r c M).Nodup := by
  obtain ⟨l1, l2, h1, _, h3⟩ := insertAfter_eq_append (c := c) hr
  rw [h3]; subst h1
  have hperm : (l1 ++ r :: c :: l2).Perm (c :: (l1 ++ r :: l2)) := by
    have := @List.perm_middle Nat c (l1 ++ [r]) l2
    simpa using this
  exact hperm.nodup_iff.mpr (List.nodup_cons.mpr ⟨hc, hM⟩)

theorem nextIn_insertAfter {r c : Nat} {M : List Nat} (hc : c ∉ M) (hr : r ∈ M) (x : Nat) :
    nextIn (insertAfter r c M) x =
      if x = r then some c else if x = c then nextIn M r else nextIn M x := by
  induction M with
  | nil => simp at hr
  | cons a t ih =>
    simp only [List.mem_cons, not_or] at hc
    by_cases h : a = r
    · subst h
      by_cases hx : x = a
      · simp [insertAfter, nextIn, hx]
      · simp [insertAfter, nextIn, hx]
    · have hrt : r ∈ t := by
        rcases List.mem_cons.mp hr with e | e
        · exact absurd e.symm h
        · exact e
      have hra : r ≠ a := fun e => h e.symm
      simp only [insertAfter, h, if_false, nextIn, head?_insertAfter, ih hc.2 hrt, hra]
      by_cases hx : x = a
      · subst hx
        have hxc : x ≠ c := fun e => hc.1 e.symm
        simp [hxc, h]
      · simp [hx]

theorem prevIn_insertAfter {r c : Nat} {M : List Nat} (hM : M.Nodup) (hc : c ∉ M)
    (hr : r ∈ M) (x : Nat) :
    prevIn (insertAfter r c M) x =
      if nextIn M r = some x then some c else if x = c then some r else prevIn M x := by
  induction M with
  | nil => simp at hr
  | cons a t ih =>
    have ht : t.Nodup := (List.nodup_cons.mp hM).2
    simp only [List.mem_cons, not_or] at hc
    have hhc : t.head? ≠ some c := fun e => hc.2 (List.mem_of_mem_head? e)
    by_cases h : a = r
    · subst h
      by_cases hx : x = c
      · subst hx; simp [insertAfter, prevIn, nextIn, hhc]
      · have hcx : c ≠ x := fun e => hx e.symm
        by_cases hh : t.head? = some x
        · simp [insertAfter, prevIn, nextIn, hx, hcx, hh]
        · simp [insertAfter, prevIn, nextIn, hx, hcx, hh]
    · have hrt : r ∈ t := by
        rcases List.mem_cons.mp hr with e | e
        · exact absurd e.symm h
        · exact e
      have hra : r ≠ a := fun e => h e.symm
      simp only [insertAfter, h, if_false, nextIn, prevIn, head?_insertAfter,
        ih ht hc.2 hrt, hra]
      by_cases hh : t.head? = some x
      · have h1 : nextIn t r ≠ some x := fun e => head?_ne_of_nextIn ht e hh
        have hxc : x ≠ c := fun e => hhc (e ▸ hh)
        simp [hh, h1, hxc]
      · simp [hh]

theorem getLast?_insertAfter {r c : Nat} {M : List Nat} (hr : r ∈ M) :
    (insertAfter r c M).getLast? = if nextIn M r = none then some c else M.getLast? := by
  induction M with
  | nil => simp at hr
  | cons a t ih =>
    by_cases h : a = r
    · subst h
      cases t with
      | nil => simp [insertAfter, nextIn]
      | cons b u => simp [insertAfter, nextIn]
    · have hrt : r ∈ t := by
        rcases List.mem_cons.mp hr with e | e
        · exact absurd e.symm h
        · exact e
      have hra : r ≠ a := fun e => h e.symm
      obtain ⟨l1, l2, _, _, h3⟩ := insertAfter_eq_append (c := c) hrt
      have hne : insertAfter r c t ≠ [] := by rw [h3]; simp
      have hne2 : t ≠ [] := List.ne_nil_of_mem hrt
      simp only [insertAfter, h, if_false, nextIn, hra]
      rw [getLast?_cons_of_ne_nil a hne, getLast?_cons_of_ne_nil a hne2, ih hrt]

theorem threads_linkedAfter {s : ListManager} {M : List Nat} (h : Threads s M)
    {c r : Nat} (hc : c ∉ M) (hr : r ∈ M) :
    Threads (linkedAfter c r s) (insertAfter r c M) := by
  obtain ⟨hM, hf, hl, hn, hp⟩ := h
  refine ⟨nodup_insertAfter hM hc hr, ?_, ?_, ?_, ?_⟩
  · simp only [linkedAfter, hf, head?_insertAfter]
  · simp only [linkedAfter, hl, hn, getLast?_insertAfter hr]
  · intro x; simp only [linkedAfter, hn, nextIn_insertAfter hc hr]
  · intro x; simp only [linkedAfter, hn, hp, prevIn_insertAfter hM hc hr]

theorem insertBefore_eq_append {r c : Nat} {M : List Nat} (hr : r ∈ M) :
    ∃ l1 l2, M = l1 ++ r :: l2 ∧ r ∉ l1 ∧ insertBefore r c M = l1 ++ c :: r :: l2 := by
  induction M with
  | nil => simp at hr
  | cons a t ih =>
    by_cases h : a = r
    · subst h; exact ⟨[], t, rfl, by simp, by simp [insertBefore]⟩
    · have hrt : r ∈ t := by
        rcases List.mem_cons.mp hr with e | e
        · exact absurd e.symm h
        · exact e
      obtain ⟨l1, l2, h1, h2, h3⟩ := ih hrt
      refine ⟨a :: l1, l2, by simp [h1], ?_, by simp [insertBefore, h, h3]⟩
      simp only [List.mem_cons, not_or]
      exact ⟨fun e => h e.symm, h2⟩

theorem nodup_insertBefore {r c : Nat} {M : List Nat} (hM : M.Nodup) (hc : c ∉ M)
    (hr : r ∈ M) : (insertBefore r c M).Nodup := by
  obtain ⟨l1, l2, h1, _, h3⟩ := insertBefore_eq_append (c := c) hr
  rw [h3]; subst h1
  exact (@List.perm_middle Nat c l1 (r :: l2)).nodup_iff.mpr
    (List.nodup_cons.mpr ⟨hc, hM⟩)

theorem prevIn_ne_none {M : List Nat} {r : Nat} (hr : r ∈ M) (hh : M.head? ≠ some r) :
    prevIn M r ≠ none := by
  obtain ⟨p, hp⟩ := prevIn_isSome hr hh
  simp [hp]

theorem head?_insertBefore {r c : Nat} {M : List Nat} (hM : M.Nodup) (hr : r ∈ M) :
    (insertBefore r c M).head? = if prevIn M r = none then some c else M.head? := by
  cases M with
  | nil => simp at hr
  | cons a t =>
    by_cases h : a = r
    · subst h; simp [insertBefore, prevIn_head hM rfl]
    · have hh : (a :: t).head? ≠ some r := by simpa using h
      simp [insertBefore, h, prevIn_ne_none hr hh]

theorem getLast?_insertBefore {r c : Nat} {M : List Nat} (hr : r ∈ M) :
    (insertBefore r c M).getLast? = M.getLast? := by
  induction M with
  | nil => simp at hr
  | cons a t ih =>
    by_cases h : a = r
    · subst h; simp [insertBefore]
    · have hrt : r ∈ t := by
        rcases List.mem_cons.mp hr with e | e
        · exact absurd e.symm h
        · exact e
      obtain ⟨l1, l2, _, _, h3⟩ := insertBefore_eq_append (c := c) hrt
      have hne : insertBefore r c t ≠ [] := by rw [h3]; simp
      have hne2 : t ≠ [] := List.ne_nil_of_mem hrt
      simp only [insertBefore, h, if_false]
      rw [getLast?_cons_of_ne_nil a hne, getLast?_cons_of_ne_nil a hne2, ih hrt]

theorem nextIn_insertBefore {r c : Nat} {M : List Nat} (hM : M.Nodup) (hc : c ∉ M)
    (hr : r ∈ M) (x : Nat) :
    nextIn (insertBefore r c M) x =
      if prevIn M r = some x then some c else if x = c then some r else nextIn M x := by
  induction M with
  | nil => simp at hr
  | cons a t ih =>
    have ha : a ∉ t := (List.nodup_cons.mp hM).1
    have ht : t.Nodup := (List.nodup_cons.mp hM).2
    simp only [List.mem_cons, not_or] at hc
    by_cases h : a = r
    · subst h
      by_cases hx : x = c
      · simp [insertBefore, nextIn, prevIn_head hM rfl, hx]
      · simp [insertBefore, nextIn, prevIn_head hM rfl, hx]
    · have hrt : r ∈ t := by
        rcases List.mem_cons.mp hr with e | e
        · exact absurd e.symm h
        · exact e
      have hra : r ≠ a := fun e => h e.symm
      simp only [insertBefore, h, if_false, nextIn, prevIn, head?_insertBefore ht hrt,
        ih ht hc.2 hrt]
      by_cases hh : t.head? = some r
      · by_cases hx : x = a
        · subst hx; simp [hh, prevIn_head ht hh]
        · have hax : a ≠ x := fun e => hx e.symm
          simp [hh, prevIn_head ht hh, hx, hax]
      · obtain ⟨p, hp⟩ := prevIn_isSome hrt hh
        have hpa : p ≠ a := fun e => ha (e ▸ prevIn_mem hp)
        by_cases hx : x = a
        · subst hx
          have hxc : x ≠ c := fun e => hc.1 e.symm
          simp [hh, hp, hpa, hxc]
        · simp [hh, hp, hx]

theorem prevIn_insertBefore {r c : Nat} {M : List Nat} (hM : M.Nodup) (hc : c ∉ M)
    (hr : r ∈ M) (x : Nat) :
    prevIn (insertBefore r c M) x =
      if x = r then some c else if x = c then prevIn M r else prevIn M x := by
  induction M with
  | nil => simp at hr
  | cons a t ih =>
    have ht : t.Nodup := (List.nodup_cons.mp hM).2
    have hcM := hc
    simp only [List.mem_cons, not_or] at hc
    have hhc : t.head? ≠ some c := fun e => hc.2 (List.mem_of_mem_head? e)
    by_cases h : a = r
    · subst h
      by_cases hx : x = a
      · subst hx; simp [insertBefore, prevIn]
      · have hax : a ≠ x := fun e => hx e.symm
        by_cases hxc : x = c
        · subst hxc
          have := prevIn_of_not_mem hcM
          simp only [insertBefore, if_true, prevIn_cons (x) (a :: t)]
          simp [hx, hax, this, prevIn_head hM rfl]
        · simp only [insertBefore, if_true, prevIn_cons c (a :: t)]
          simp [hx, hax, hxc]
    · have hrt : r ∈ t := by
        rcases List.mem_cons.mp hr with e | e
        · exact absurd e.symm h
        · exact e
      simp only [insertBefore, h, if_false, prevIn, head?_insertBefore ht hrt,
        ih ht hc.2 hrt]
      by_cases hh : t.head? = some r
      · by_cases hx : x = r
        · subst hx
          have hcx : c ≠ x := fun e => hhc (e ▸ hh)
          simp [hh, prevIn_head ht hh, hcx]
        · have hrx : r ≠ x := fun e => hx e.symm
          by_cases hxc : x = c
          · subst hxc; simp [hh, prevIn_head ht hh, hx]
          · have hcx : c ≠ x := fun e => hxc e.symm
            simp [hh, prevIn_head ht hh, hx, hxc, hcx, hrx]
      · have hpn := prevIn_ne_none hrt hh
        by_cases h2 : t.head? = some x
        · have hx : x ≠ r := fun e => hh (e ▸ h2)
          have hxc : x ≠ c := fun e => hhc (e ▸ h2)
          simp [hpn, h2, hx, hxc]
        · simp [hpn, h2, hh]

theorem threads_linkedBefore {s : ListManager} {M : List Nat} (h : Threads s M)
    {c r : Nat} (hc : c ∉ M) (hr : r ∈ M) :
    Threads (linkedBefore c r s) (insertBefore r c M) := by
  obtain ⟨hM, hf, hl, hn, hp⟩ := h
  refine ⟨nodup_insertBefore hM hc hr, ?_, ?_, ?_, ?_⟩
  · simp only [linkedBefore, hf, hp, head?_insertBefore hM hr]
  · simp only [linkedBefore, hl, getLast?_insertBefore hr]
  · intro x; simp only [linkedBefore, hn, hp, nextIn_insertBefore hM hc hr]
  · intro x; simp only [linkedBefore, hp, prevIn_insertBefore hM hc hr]

theorem nextIn_append_singleton {L : List Nat} {c : Nat} (hL : L.Nodup) (hc : c ∉ L)
    (x : Nat) :
    nextIn (L ++ [c]) x =
      if L.getLast? = some x then some c else if x = c then none else nextIn L x := by
  induction L with
  | nil => simp [nextIn]
  | cons a t ih =>
    have ha : a ∉ t := (List.nodup_cons.mp hL).1
    have ht : t.Nodup := (List.nodup_cons.mp hL).2
    simp only [List.mem_cons, not_or] at hc
    rw [List.cons_append, nextIn_cons, ih ht hc.2, List.getLast?_cons, nextIn_cons]
    by_cases hx : x = a
    · subst hx
      have hxc : x ≠ c := fun e => hc.1 e.symm
      rcases hg : t.getLast? with _ | z
      · have : t = [] := List.getLast?_eq_none_iff.mp hg
        subst this; simp
      · have hz : z ≠ x := fun e => ha (e ▸ List.mem_of_getLast?_eq_some hg)
        have hne : t ≠ [] := fun e => by subst e; simp at hg
        obtain ⟨b, u, hb⟩ := List.exists_cons_of_ne_nil hne
        subst hb
        simp [hz, hxc]
    · rcases hg : t.getLast? with _ | z
      · have hax : a ≠ x := fun e => hx e.symm
        simp [hx, hax]
      · simp [hx]

theorem prevIn_append_singleton {L : List Nat} {c : Nat} (hc : c ∉ L) (x : Nat) :
    prevIn (L ++ [c]) x = if x = c then L.getLast? else prevIn L x := by
  induction L with
  | nil => simp [prevIn]
  | cons a t ih =>
    simp only [List.mem_cons, not_or] at hc
    rw [List.cons_append, prevIn_cons, ih hc.2, prevIn_cons]
    cases t with
    | nil =>
      by_cases hx : x = c
      · simp [hx, prevIn]
      · have hcx : c ≠ x := fun e => hx e.symm
        simp [hx, hcx, prevIn]
    | cons b u =>
      have hbc : b ≠ c := fun e => hc.2 (by simp [e])
      by_cases hx : x = c
      · subst hx; simp [hbc]
      · simp [hx]

theorem threads_tailed {s : ListManager} {L : List Nat} (h : Threads s L)
    {c : Nat} (hc : c ∉ L) : Threads (tailed c s) (L ++ [c]) := by
  obtain ⟨hL, hf, hl, hn, hp⟩ := h
  refine ⟨?_, ?_, ?_, ?_, ?_⟩
  · exact List.nodup_append.mpr ⟨hL, List.nodup_singleton c, by simpa using hc⟩
  · cases L with
    | nil => simp [tailed, hl]
    | cons a t =>
      have : (a :: t).getLast? ≠ none := by simp
      simp [tailed, hl, hf, this]
  · simp [tailed]
  · intro x; simp only [tailed, hl, hn, nextIn_append_singleton hL hc]
  · intro x; simp only [tailed, hl, hp, prevIn_append_singleton hc]

theorem threads_headed {s : ListManager} {L : List Nat} (h : Threads s L)
    {c : Nat} (hc : c ∉ L) : Threads (headed c s) (c :: L) := by
  obtain ⟨hL, hf, hl, hn, hp⟩ := h
  refine ⟨List.nodup_cons.mpr ⟨hc, hL⟩, ?_, ?_, ?_, ?_⟩
  · simp [headed]
  · cases L with
    | nil => simp [headed, hf]
    | cons a t => simp [headed, hf, hl]
  · intro x; simp only [headed, hf, hn, nextIn]
  · intro x
    simp only [headed, hf, hp, prevIn]
    by_cases hh : L.head? = some x
    · simp [hh]
    · by_cases hx : x = c
      · subst hx; simp [hh, prevIn_of_not_mem hc]
      · simp [hh, hx]

/-! Ends of the sequence and membership, read off the links. -/

theorem nextIn_eq_none_iff {M : List Nat} (hM : M.Nodup) {r : Nat} (hr : r ∈ M) :
    nextIn M r = none ↔ M.getLast? = some r := by
  induction M with
  | nil => simp at hr
  | cons a t ih =>
    have ha : a ∉ t := (List.nodup_cons.mp hM).1
    have ht : t.Nodup := (List.nodup_cons.mp hM).2
    rw [nextIn_cons, List.getLast?_cons]
    by_cases h : r = a
    · subst h
      rcases hg : t.getLast? with _ | z
      · have : t = [] := List.getLast?_eq_none_iff.mp hg
        subst this; simp
      · have hz : z ≠ r := fun e => ha (e ▸ List.mem_of_getLast?_eq_some hg)
        have hne : t ≠ [] := fun e => by subst e; simp at hg
        simp [hz, hne]
    · have hrt : r ∈ t := by
        rcases List.mem_cons.mp hr with e | e
        · exact absurd e h
        · exact e
      rw [if_neg h, ih ht hrt]
      rcases hg : t.getLast? with _ | z
      · have : t = [] := List.getLast?_eq_none_iff.mp hg
        subst this; simp at hrt
      · simp

theorem prevIn_eq_none_iff {M : List Nat} (hM : M.Nodup) {r : Nat} (hr : r ∈ M) :
    prevIn M r = none ↔ M.head? = some r := by
  constructor
  · intro h
    by_contra hh
    exact prevIn_ne_none hr hh h
  · exact prevIn_head hM

theorem prevIn_ne_self {L : List Nat} (hL : L.Nodup) (c : Nat) : prevIn L c ≠ some c :=
  fun h => nextIn_ne_self hL c (nextIn_of_prevIn hL h)

theorem inList_iff_mem {s : ListManager} {L : List Nat} (h : Repr s L) (c : Nat) :
    InList s c = true ↔ c ∈ L := by
  obtain ⟨hL, hf, _, _, hp⟩ := (repr_iff_threads s L).mp h
  simp only [InList, Bool.or_eq_true, decide_eq_true_eq, hf, hp]
  constructor
  · rintro (h1 | h1)
    · exact List.mem_of_mem_head? h1
    · by_contra hc
      exact h1 (prevIn_of_not_mem hc)
  · intro hc
    by_cases hh : L.head? = some c
    · exact Or.inl hh
    · exact Or.inr (prevIn_ne_none hc hh)

theorem repr_ofList {L : List Nat} (hL : L.Nodup) : Repr (ofList L) L :=
  (repr_iff_threads _ _).mpr ⟨hL, rfl, rfl, fun _ => rfl, fun _ => rfl⟩

theorem repr_popped {s : ListManager} {L : List Nat} (h : Repr s L) (c : Nat) :
    Repr (popped c s) (L.erase c) :=
  (repr_iff_threads _ _).mpr (threads_popped ((repr_iff_threads _ _).mp h) c)

theorem popped_eq_self {s : ListManager} {L : List Nat} (h : Repr s L) {c : Nat}
    (hc : c ∉ L) : popped c s = s := by
  obtain ⟨hL, hf, hl, hn, hp⟩ := (repr_iff_threads s L).mp h
  have h1 : s.next c = none := by rw [hn, nextIn_of_not_mem hc]
  have h2 : s.prev c = none := by rw [hp, prevIn_of_not_mem hc]
  have h3 : s.first ≠ some c := fun e => hc (List.mem_of_mem_head? (hf ▸ e))
  have h4 : s.last ≠ some c := fun e => hc (List.mem_of_getLast?_eq_some (hl ▸ e))
  apply ListManager.ext_links
  · simp [popped, h3]
  · simp [popped, h4]
  · intro x
    by_cases hx : x = c
    · subst hx; simp [popped, h1]
    · simp [popped, hx, h2]
  · intro x
    by_cases hx : x = c
    · subst hx; simp [popped, h2]
    · simp [popped, hx, h1]

theorem repr_AddAfter {s : ListManager} {L : List Nat} (h : Repr s L) {c r : Nat}
    (hr : r ∈ L) (hne : c ≠ r) :
    Repr (linkedAfter c r (popped c s)) (insertAfter r c (L.erase c)) := by
  have h1 := (repr_iff_threads _ _).mp (repr_popped h c)
  have hc : c ∉ L.erase c := fun e => (List.Nodup.mem_erase_iff h.1).mp e |>.1 rfl
  have hr2 : r ∈ L.erase c := (List.mem_erase_of_ne (fun e => hne e.symm)).mpr hr
  exact (repr_iff_threads _ _).mpr (threads_linkedAfter h1 hc hr2)

theorem repr_AddBefore {s : ListManager} {L : List Nat} (h : Repr s L) {c r : Nat}
    (hr : r ∈ L) (hne : c ≠ r) :
    Repr (linkedBefore c r (popped c s)) (insertBefore r c (L.erase c)) := by
  have h1 := (repr_iff_threads _ _).mp (repr_popped h c)
  have hc : c ∉ L.erase c := fun e => (List.Nodup.mem_erase_iff h.1).mp e |>.1 rfl
  have hr2 : r ∈ L.erase c := (List.mem_erase_of_ne (fun e => hne e.symm)).mpr hr
  exact (repr_iff_threads _ _).mpr (threads_linkedBefore h1 hc hr2)

theorem repr_tailed {s : ListManager} {L : List Nat} (h : Repr s L) {c : Nat}
    (hc : c ∉ L) : Repr (tailed c s) (L ++ [c]) :=
  (repr_iff_threads _ _).mpr (threads_tailed ((repr_iff_threads _ _).mp h) hc)

theorem repr_headed {s : ListManager} {L : List Nat} (h : Repr s L) {c : Nat}
    (hc : c ∉ L) : Repr (headed c s) (c :: L) :=
  (repr_iff_threads _ _).mpr (threads_headed ((repr_iff_threads _ _).mp h) hc)

/-! Well-formedness is kept by every call made within its precondition. -/

theorem mem_insertAfter {r c z : Nat} {M : List Nat} (hr : r ∈ M) (hz : z ∈ M) :
    z ∈ insertAfter r c M := by
  obtain ⟨l1, l2, h1, _, h3⟩ := insertAfter_eq_append (c := c) hr
  rw [h3]; rw [h1] at hz
  simp only [List.mem_append, List.mem_cons] at hz ⊢
  tauto

theorem AddAfter_none_ref (obj : Ptr) (s : ListManager) : AddAfter obj none s = some s := by
  simp [AddAfter]

theorem AddAfter_keeps {s : ListManager} {L : List Nat} (h : Repr s L) (c : Nat)
    (ref : Ptr) (hr : ∀ r, ref = some r → r ∈ L ∧ c ≠ r) :
    ∃ s' L', AddAfter (some c) ref s = some s' ∧ Repr s' L' ∧
      ∀ z, z ∈ L → z ≠ c → z ∈ L' := by
  cases ref with
  | none => exact ⟨s, L, AddAfter_none_ref _ s, h, fun z hz _ => hz⟩
  | some r =>
    obtain ⟨hrL, hne⟩ := hr r rfl
    refine ⟨_, _, AddAfter_some c r s, repr_AddAfter h hrL hne, fun z hz hzc => ?_⟩
    have hr2 : r ∈ L.erase c := (List.mem_erase_of_ne (fun e => hne e.symm)).mpr hrL
    exact mem_insertAfter hr2 ((List.mem_erase_of_ne hzc).mpr hz)

theorem Swap_general {s : ListManager} {x y : Nat} (h1 : s.prev x ≠ some y)
    (h2 : s.prev y ≠ some x) :
    Swap (some x) (some y) s =
      (AddAfter (some x) ((popped x s).prev y) (popped y (popped x s))).bind
        (AddAfter (some y) (s.prev x)) := by
  simp [Swap, ListManager.ldPrev, h1, h2, Pop_some, bind, Option.bind]

theorem Swap_keeps_wellFormed (s : ListManager) (h : WellFormed s) (obj1 obj2 : Ptr) :
    ∃ s', Swap obj1 obj2 s = some s' ∧ WellFormed s' := by
  obtain ⟨L, hR⟩ := h
  cases obj1 with
  | none => exact ⟨s, by simp [Swap], L, hR⟩
  | some x =>
  cases obj2 with
  | none => exact ⟨s, by simp [Swap], L, hR⟩
  | some y =>
    obtain ⟨hL, hf, hl, hn, hp⟩ := (repr_iff_threads s L).mp hR
    have hR1 := repr_popped hR x
    by_cases h1 : s.prev x = some y
    · have hy : y ∈ L := prevIn_mem (hp x ▸ h1)
      have hxy : x ≠ y := fun e => prevIn_ne_self hL x (by rw [← hp, h1, e])
      have hy1 : y ∈ L.erase x := (List.mem_erase_of_ne (fun e => hxy e.symm)).mpr hy
      refine ⟨linkedBefore x y (popped x (popped x s)), ?_, _, repr_AddBefore hR1 hy1 hxy⟩
      simp [Swap, ListManager.ldPrev, h1, Pop_some, AddBefore_some, bind, Option.bind]
    · by_cases h2 : s.prev y = some x
      · have hx : x ∈ L := prevIn_mem (hp y ▸ h2)
        have hyx : y ≠ x := fun e => prevIn_ne_self hL y (by rw [← hp, h2, e])
        have hR2 := repr_popped hR y
        have hx1 : x ∈ L.erase y := (List.mem_erase_of_ne (fun e => hyx e.symm)).mpr hx
        refine ⟨linkedBefore y x (popped y (popped y s)), ?_, _,
          repr_AddBefore hR2 hx1 hyx⟩
        simp [Swap, ListManager.ldPrev, h1, h2, Pop_some, AddBefore_some, bind, Option.bind]
      · have hR2 := repr_popped hR1 y
        obtain ⟨hL1, _, _, _, hp1⟩ := (repr_iff_threads _ _).mp hR1
        have hx1 : x ∉ L.erase x := fun e => ((List.Nodup.mem_erase_iff hL).mp e).1 rfl
        have hk1 : ∀ r, (popped x s).prev y = some r →
            r ∈ (L.erase x).erase y ∧ x ≠ r := by
          intro r hr
          rw [hp1] at hr
          have hr1 : r ∈ L.erase x := prevIn_mem hr
          have hry : r ≠ y := fun e => prevIn_ne_self hL1 y (by rw [hr, e])
          exact ⟨(List.mem_erase_of_ne hry).mpr hr1, fun e => hx1 (e ▸ hr1)⟩
        obtain ⟨s3, L3, e3, hR3, hm3⟩ := AddAfter_keeps hR2 x _ hk1
        have hk2 : ∀ r, s.prev x = some r → r ∈ L3 ∧ y ≠ r := by
          intro r hr
          have hry : r ≠ y := fun e => h1 (by rw [hr, e])
          have hrx : r ≠ x := fun e => prevIn_ne_self hL x (by rw [← hp, hr, e])
          have hrL : r ∈ L := prevIn_mem (hp x ▸ hr)
          refine ⟨hm3 r ?_ hrx, fun e => hry e.symm⟩
          exact (List.mem_erase_of_ne hry).mpr ((List.mem_erase_of_ne hrx).mpr hrL)
        obtain ⟨s4, L4, e4, hR4, _⟩ := AddAfter_keeps hR3 y _ hk2
        refine ⟨s4, ?_, L4, hR4⟩
        simp [Swap, ListManager.ldPrev, h1, h2, Pop_some, bind, Option.bind, e3, e4]

theorem inv_of_repr {s : ListManager} {L : List Nat} (h : Repr s L) : Inv s := by
  obtain ⟨hL, hf, hl, hn, hp⟩ := (repr_iff_threads s L).mp h
  refine ⟨fun c _ => ⟨fun n e => ?_, fun p e => ?_⟩, fun x e => ?_, fun t e => ?_, ?_⟩
  · rw [hp]; exact prevIn_of_nextIn hL (hn c ▸ e)
  · rw [hn]; exact nextIn_of_prevIn hL (hp c ▸ e)
  · rw [hp]; exact prevIn_head hL (hf ▸ e)
  · rw [hn]
    have ht : L.getLast? = some t := hl ▸ e
    exact (nextIn_eq_none_iff hL (List.mem_of_getLast?_eq_some ht)).mpr ht
  · constructor
    · intro hall
      have hnil : L = [] := by
        cases L with
        | nil => rfl
        | cons a t =>
          have := (inList_iff_mem h a).mpr (by simp)
          rw [hall a] at this
          cases this
      subst hnil
      exact ⟨hf, hl⟩
    · rintro ⟨h1, _⟩ c
      have hnil : L = [] := List.head?_eq_none_iff.mp (hf ▸ h1)
      subst hnil
      have := inList_iff_mem h c
      cases hb : InList s c with
      | false => rfl
      | true => exact absurd (this.mp hb) (by simp)

theorem repr_empty : Repr ListManager.empty [] :=
  (repr_iff_threads _ _).mpr ⟨List.nodup_nil, rfl, rfl, fun _ => rfl, fun _ => rfl⟩

theorem runOp_keeps {s : ListManager} (h : WellFormed s) (op : Op)
    (hpre : opPre op s = true) : ∃ s', runOp op s = some s' ∧ WellFormed s' := by
  obtain ⟨L, hR⟩ := h
  cases op with
  | addTail obj =>
    cases obj with
    | none => simp [opPre] at hpre
    | some c =>
      have hc : c ∉ L := fun hm => by
        have := (inList_iff_mem hR c).mpr hm
        simp [opPre, this] at hpre
      exact ⟨_, AddTail_some c s, _, repr_tailed hR hc⟩
  | addHead obj =>
    cases obj with
    | none => simp [opPre] at hpre
    | some c =>
      have hc : c ∉ L := fun hm => by
        have := (inList_iff_mem hR c).mpr hm
        simp [opPre, this] at hpre
      exact ⟨_, AddHead_some c s, _, repr_headed hR hc⟩
  | addAfter obj ref =>
    cases obj with
    | none => exact ⟨s, by simp [runOp, AddAfter], L, hR⟩
    | some c =>
      cases ref with
      | none => exact ⟨s, by simp [runOp, AddAfter], L, hR⟩
      | some r =>
        simp only [opPre, Bool.and_eq_true, decide_eq_true_eq] at hpre
        exact ⟨_, AddAfter_some c r s, _,
          repr_AddAfter hR ((inList_iff_mem hR r).mp hpre.2) hpre.1⟩
  | addBefore obj ref =>
    cases obj with
    | none => exact ⟨s, by simp [runOp, AddBefore], L, hR⟩
    | some c =>
      cases ref with
      | none => exact ⟨s, by simp [runOp, AddBefore], L, hR⟩
      | some r =>
        simp only [opPre, Bool.and_eq_true, decide_eq_true_eq] at hpre
        exact ⟨_, AddBefore_some c r s, _,
          repr_AddBefore hR ((inList_iff_mem hR r).mp hpre.2) hpre.1⟩
  | pop obj =>
    cases obj with
    | none => exact ⟨s, Pop_none s, L, hR⟩
    | some c => exact ⟨_, Pop_some c s, _, repr_popped hR c⟩
  | swap obj1 obj2 => exact Swap_keeps_wellFormed s ⟨L, hR⟩ obj1 obj2

theorem runOps_keeps (ops : List Op) {s : ListManager} (h : WellFormed s)
    (hok : okRun ops s = true) : ∃ s', runOps ops s = some s' ∧ WellFormed s' := by
  induction ops generalizing s with
  | nil => exact ⟨s, rfl, h⟩
  | cons op rest ih =>
    simp only [okRun, Bool.and_eq_true] at hok
    obtain ⟨s1, e1, h1⟩ := runOp_keeps h op hok.1
    rw [e1] at hok
    obtain ⟨s2, e2, h2⟩ := ih h1 hok.2
    exact ⟨s2, by simp [runOps, e1, e2], h2⟩

theorem okRun_take (ops : List Op) (k : Nat) {s : ListManager}
    (hok : okRun ops s = true) : okRun (ops.take k) s = true := by
  induction ops generalizing s k with
  | nil => simp [okRun]
  | cons op rest ih =>
    cases k with
    | zero => simp [okRun]
    | succ j =>
      simp only [okRun, Bool.and_eq_true, List.take_succ_cons] at hok ⊢
      refine ⟨hok.1, ?_⟩
      cases e : runOp op s with
      | none => rfl
      | some s1 => rw [e] at hok; exact ih j hok.2

/-! The claims about single member functions. -/

/-- C4: on a well-formed list with sequence `L`, `Pop(c)` of a chunk `c` of
`L` returns, leaves the well-formed list whose sequence is `L` with `c` erased,
links the former neighbours of `c` to each other, moves head and tail to the
neighbour of `c` when `c` was the head or the tail (both become null when `c`
was the only chunk), and leaves both links of `c` null. -/
theorem Pop_erases (s : ListManager) (L : List Nat) (c : Nat)
    (h : Repr s L) (hc : c ∈ L) :
    ∃ s', Pop (some c) s = some s' ∧ Repr s' (L.erase c) ∧ c ∉ L.erase c ∧
      s'.next c = none ∧ s'.prev c = none ∧
      (∀ p, s.prev c = some p → s'.next p = s.next c) ∧
      (∀ n, s.next c = some n → s'.prev n = s.prev c) ∧
      GetHead s' = (if GetHead s = some c then s.next c else GetHead s) ∧
      GetTail s' = (if GetTail s = some c then s.prev c else GetTail s) ∧
      (L = [c] → GetHead s' = none ∧ GetTail s' = none) := by
  obtain ⟨hL, hf, hl, hn, hp⟩ := (repr_iff_threads s L).mp h
  refine ⟨popped c s, Pop_some c s, repr_popped h c, ?_, ?_, ?_, ?_, ?_, rfl, rfl, ?_⟩
  · exact fun e => ((List.Nodup.mem_erase_iff hL).mp e).1 rfl
  · simp [popped]
  · simp [popped]
  · intro p hpc
    have hne : p ≠ c := fun e => prevIn_ne_self hL c (by rw [← hp, hpc, e])
    simp [popped, hne, hpc]
  · intro n hnc
    have hne : n ≠ c := fun e => nextIn_ne_self hL c (by rw [← hn, hnc, e])
    simp [popped, hne, hnc]
  · intro hLc
    subst hLc
    have h1 : s.next c = none := by rw [hn]; simp [nextIn]
    have h2 : s.prev c = none := by rw [hp]; simp [prevIn]
    have h3 : s.first = some c := by rw [hf]; rfl
    have h4 : s.last = some c := by rw [hl]; rfl
    simp [GetHead, GetTail, popped, h1, h2, h3, h4]

/-- Witness of C4: popping the middle chunk of the list 1, 2, 3. -/
theorem Pop_erases_witness :
    Repr (ofList [1, 2, 3]) [1, 2, 3] ∧ 2 ∈ [1, 2, 3] ∧
    ∃ s', Pop (some 2) (ofList [1, 2, 3]) = some s' ∧ Repr s' [1, 3] ∧
      s'.next 2 = none ∧ s'.prev 2 = none :=
  ⟨repr_ofList (by decide), by decide,
    let ⟨s', h1, h2, _, h3, h4, _⟩ :=
      Pop_erases (ofList [1, 2, 3]) [1, 2, 3] 2 (repr_ofList (by decide)) (by decide)
    ⟨s', h1, h2, h3, h4⟩⟩

/-- C5: on a well-formed list with sequence `L`, for `ref` in `L` and a chunk
`c` other than `ref` (in `L` or detached), `AddAfter(c, ref)` returns and
leaves the well-formed list whose sequence is `L` with `c` erased and then `c`
put right after `ref`; `c` occurs exactly once, `GetPrev(c)` is `ref`, and the
tail is `c` exactly when `ref` was the last chunk of `L` with `c` erased. -/
theorem AddAfter_inserts (s : ListManager) (L : List Nat) (c ref : Nat)
    (h : Repr s L) (hr : ref ∈ L) (hne : c ≠ ref) :
    ∃ s', AddAfter (some c) (some ref) s = some s' ∧
      Repr s' (insertAfter ref c (L.erase c)) ∧
      (∃ l1 l2, L.erase c = l1 ++ ref :: l2 ∧
        insertAfter ref c (L.erase c) = l1 ++ ref :: c :: l2) ∧
      (insertAfter ref c (L.erase c)).count c = 1 ∧
      GetPrev s' (some c) = some ref ∧
      (GetTail s' = some c ↔ (L.erase c).getLast? = some ref) := by
  have hR := repr_AddAfter h hr hne
  obtain ⟨hM, hf, hl, hn, hp⟩ := (repr_iff_threads _ _).mp (repr_popped h c)
  have hc : c ∉ L.erase c := fun e => ((List.Nodup.mem_erase_iff h.1).mp e).1 rfl
  have hr2 : ref ∈ L.erase c := (List.mem_erase_of_ne (fun e => hne e.symm)).mpr hr
  obtain ⟨l1, l2, e1, _, e2⟩ := insertAfter_eq_append (c := c) hr2
  have hnc : (popped c s).next ref ≠ some c := fun e => hc (nextIn_mem (hn ref ▸ e))
  refine ⟨_, AddAfter_some c ref s, hR, ⟨l1, l2, e1, e2⟩, ?_, ?_, ?_⟩
  · exact List.count_eq_one_of_mem hR.1 (by rw [e2]; simp)
  · simp [GetPrev, linkedAfter, hnc]
  · simp only [GetTail, linkedAfter]
    rw [← nextIn_eq_none_iff hM hr2, ← hn ref]
    by_cases hx : (popped c s).next ref = none
    · simp [hx]
    · have : (popped c s).last ≠ some c :=
        fun e => hc (List.mem_of_getLast?_eq_some (hl ▸ e))
      simp [hx, this]

/-- Witness of C5: moving chunk 1 of the list 1, 2, 3 to after chunk 3. -/
theorem AddAfter_inserts_witness :
    Repr (ofList [1, 2, 3]) [1, 2, 3] ∧ 3 ∈ [1, 2, 3] ∧ 1 ≠ 3 ∧
    ∃ s', AddAfter (some 1) (some 3) (ofList [1, 2, 3]) = some s' ∧
      Repr s' [2, 3, 1] ∧ GetPrev s' (some 1) = some 3 :=
  ⟨repr_ofList (by decide), by decide, by decide,
    let ⟨s', h1, h2, _, _, h3, _⟩ :=
      AddAfter_inserts (ofList [1, 2, 3]) [1, 2, 3] 1 3 (repr_ofList (by decide))
        (by decide) (by decide)
    ⟨s', h1, h2, h3⟩⟩

/-- C6: on a well-formed list with sequence `L`, for `ref` in `L` and a chunk
`c` other than `ref` (in `L` or detached), `AddBefore(c, ref)` returns and
leaves the well-formed list whose sequence is `L` with `c` erased and then `c`
put right before `ref`; `c` occurs exactly once, `GetNext(c)` is `ref`, and the
head is `c` exactly when `ref` was the first chunk of `L` with `c` erased. -/
theorem AddBefore_inserts (s : ListManager) (L : List Nat) (c ref : Nat)
    (h : Repr s L) (hr : ref ∈ L) (hne : c ≠ ref) :
    ∃ s', AddBefore (some c) (some ref) s = some s' ∧
      Repr s' (insertBefore ref c (L.erase c)) ∧
      (∃ l1 l2, L.erase c = l1 ++ ref :: l2 ∧
        insertBefore ref c (L.erase c) = l1 ++ c :: ref :: l2) ∧
      (insertBefore ref c (L.erase c)).count c = 1 ∧
      GetNext s' (some c) = some ref ∧
      (GetHead s' = some c ↔ (L.erase c).head? = some ref) := by
  have hR := repr_AddBefore h hr hne
  obtain ⟨hM, hf, hl, hn, hp⟩ := (repr_iff_threads _ _).mp (repr_popped h c)
  have hc : c ∉ L.erase c := fun e => ((List.Nodup.mem_erase_iff h.1).mp e).1 rfl
  have hr2 : ref ∈ L.erase c := (List.mem_erase_of_ne (fun e => hne e.symm)).mpr hr
  obtain ⟨l1, l2, e1, _, e2⟩ := insertBefore_eq_append (c := c) hr2
  have hnc : (popped c s).prev ref ≠ some c := fun e => hc (prevIn_mem (hp ref ▸ e))
  refine ⟨_, AddBefore_some c ref s, hR, ⟨l1, l2, e1, e2⟩, ?_, ?_, ?_⟩
  · exact List.count_eq_one_of_mem hR.1 (by rw [e2]; simp)
  · simp [GetNext, linkedBefore, hnc]
  · simp only [GetHead, linkedBefore]
    rw [← prevIn_eq_none_iff hM hr2, ← hp ref]
    by_cases hx : (popped c s).prev ref = none
    · simp [hx]
    · have : (popped c s).first ≠ some c :=
        fun e => hc (List.mem_of_mem_head? (hf ▸ e))
      simp [hx, this]

/-- Witness of C6: moving chunk 3 of the list 1, 2, 3 to before chunk 1. -/
theorem AddBefore_inserts_witness :
    Repr (ofList [1, 2, 3]) [1, 2, 3] ∧ 1 ∈ [1, 2, 3] ∧ 3 ≠ 1 ∧
    ∃ s', AddBefore (some 3) (some 1) (ofList [1, 2, 3]) = some s' ∧
      Repr s' [3, 1, 2] ∧ GetNext s' (some 3) = some 1 :=
  ⟨repr_ofList (by decide), by decide, by decide,
    let ⟨s', h1, h2, _, _, h3, _⟩ :=
      AddBefore_inserts (ofList [1, 2, 3]) [1, 2, 3] 3 1 (repr_ofList (by decide))
        (by decide) (by decide)
    ⟨s', h1, h2, h3⟩⟩

/-- C7: on a well-formed list with sequence `L`, `AddTail(c)` of a chunk `c`
not in `L` returns and leaves the well-formed list with sequence `L` followed
by `c`: the tail is `c`, `c.next` is null, `c.prev` is the former tail (null
when `L` was empty), and when `L` was empty head and tail are both `c`. -/
theorem AddTail_appends (s : ListManager) (L : List Nat) (c : Nat)
    (h : Repr s L) (hc : c ∉ L) :
    ∃ s', AddTail (some c) s = some s' ∧ Repr s' (L ++ [c]) ∧
      GetTail s' = some c ∧ s'.next c = none ∧ s'.prev c = GetTail s ∧
      (L = [] → s'.prev c = none ∧ GetHead s' = some c ∧ GetTail s' = some c) := by
  obtain ⟨hL, hf, hl, hn, hp⟩ := (repr_iff_threads s L).mp h
  have hlc : s.last ≠ some c := fun e => hc (List.mem_of_getLast?_eq_some (hl ▸ e))
  refine ⟨tailed c s, AddTail_some c s, repr_tailed h hc, rfl, ?_, ?_, ?_⟩
  · simp [tailed, hlc]
  · simp [tailed, GetTail]
  · intro hLe
    subst hLe
    have h4 : s.last = none := by rw [hl]; rfl
    simp [tailed, GetHead, GetTail, h4]

/-- Witness of C7: appending chunk 3 to the list 1, 2, and chunk 1 to the
empty list. -/
theorem AddTail_appends_witness :
    (Repr (ofList [1, 2]) [1, 2] ∧ 3 ∉ [1, 2] ∧
      ∃ s', AddTail (some 3) (ofList [1, 2]) = some s' ∧ Repr s' [1, 2, 3] ∧
        GetTail s' = some 3 ∧ s'.next 3 = none ∧ s'.prev 3 = some 2) ∧
    (Repr (ofList []) [] ∧ 1 ∉ ([] : List Nat) ∧
      ∃ s', AddTail (some 1) (ofList []) = some s' ∧ Repr s' [1] ∧
        GetHead s' = some 1 ∧ GetTail s' = some 1) :=
  ⟨⟨repr_ofList (by decide), by decide,
    let ⟨s', h1, h2, h3, h4, h5, _⟩ :=
      AddTail_appends (ofList [1, 2]) [1, 2] 3 (repr_ofList (by decide)) (by decide)
    ⟨s', h1, h2, h3, h4, h5⟩⟩,
   ⟨repr_ofList (by decide), by decide,
    let ⟨s', h1, h2, _, _, _, h6⟩ :=
      AddTail_appends (ofList []) [] 1 (repr_ofList (by decide)) (by decide)
    ⟨s', h1, h2, (h6 rfl).2.1, (h6 rfl).2.2⟩⟩⟩

/-- C8: on a well-formed list with sequence `L`, `AddHead(c)` of a chunk `c`
not in `L` returns and leaves the well-formed list with sequence `c` followed
by `L`: the head is `c`, `c.prev` is null, `c.next` is the former head (null
when `L` was empty), and when `L` was empty head and tail are both `c`. -/
theorem AddHead_prepends (s : ListManager) (L : List Nat) (c : Nat)
    (h : Repr s L) (hc : c ∉ L) :
    ∃ s', AddHead (some c) s = some s' ∧ Repr s' (c :: L) ∧
      GetHead s' = some c ∧ s'.prev c = none ∧ s'.next c = GetHead s ∧
      (L = [] → s'.next c = none ∧ GetHead s' = some c ∧ GetTail s' = some c) := by
  obtain ⟨hL, hf, hl, hn, hp⟩ := (repr_iff_threads s L).mp h
  have hfc : s.first ≠ some c := fun e => hc (List.mem_of_mem_head? (hf ▸ e))
  refine ⟨headed c s, AddHead_some c s, repr_headed h hc, rfl, ?_, ?_, ?_⟩
  · simp [headed, hfc]
  · simp [headed, GetHead]
  · intro hLe
    subst hLe
    have h4 : s.first = none := by rw [hf]; rfl
    simp [headed, GetHead, GetTail, h4]

/-- Witness of C8: prepending chunk 3 to the list 1, 2, and chunk 1 to the
empty list. -/
theorem AddHead_prepends_witness :
    (Repr (ofList [1, 2]) [1, 2] ∧ 3 ∉ [1, 2] ∧
      ∃ s', AddHead (some 3) (ofList [1, 2]) = some s' ∧ Repr s' [3, 1, 2] ∧
        GetHead s' = some 3 ∧ s'.prev 3 = none ∧ s'.next 3 = some 1) ∧
    (Repr (ofList []) [] ∧ 1 ∉ ([] : List Nat) ∧
      ∃ s', AddHead (some 1) (ofList []) = some s' ∧ Repr s' [1] ∧
        GetHead s' = some 1 ∧ GetTail s' = some 1) :=
  ⟨⟨repr_ofList (by decide), by decide,
    let ⟨s', h1, h2, h3, h4, h5, _⟩ :=
      AddHead_prepends (ofList [1, 2]) [1, 2] 3 (repr_ofList (by decide)) (by decide)
    ⟨s', h1, h2, h3, h4, h5⟩⟩,
   ⟨repr_ofList (by decide), by decide,
    let ⟨s', h1, h2, _, _, _, h6⟩ :=
      AddHead_prepends (ofList []) [] 1 (repr_ofList (by decide)) (by decide)
    ⟨s', h1, h2, (h6 rfl).2.1, (h6 rfl).2.2⟩⟩⟩

/-- C9: on a well-formed list `Pop` is idempotent: for every pointer `obj`
(null included), `Pop(obj)` returns a state on which a second `Pop(obj)`
returns that same state; and `Pop(c)` of a chunk that is not in the list (both
links null, not the head) returns the state unchanged. -/
theorem Pop_idempotent (s : ListManager) (h : WellFormed s) (obj : Ptr) :
    ∃ s1, Pop obj s = some s1 ∧ Pop obj s1 = some s1 ∧
      (∀ c, obj = some c → s.next c = none → s.prev c = none → s.first ≠ some c →
        s1 = s) := by
  obtain ⟨L, hR⟩ := h
  cases obj with
  | none => exact ⟨s, Pop_none s, Pop_none s, fun _ _ _ _ _ => rfl⟩
  | some c =>
    have hc : c ∉ L.erase c := fun e => ((List.Nodup.mem_erase_iff hR.1).mp e).1 rfl
    refine ⟨popped c s, Pop_some c s, ?_, ?_⟩
    · rw [Pop_some, popped_eq_self (repr_popped hR c) hc]
    · intro c' hc' h1 h2 h3
      cases hc'
      have hnot : c ∉ L := by
        intro hm
        have := (inList_iff_mem hR c).mpr hm
        simp [InList, h2, h3] at this
      exact popped_eq_self hR hnot

/-- Witness of C9: popping chunk 2 of the list 1, 2, 3 twice. -/
theorem Pop_idempotent_witness :
    WellFormed (ofList [1, 2, 3]) ∧
    ∃ s1, Pop (some 2) (ofList [1, 2, 3]) = some s1 ∧ Pop (some 2) s1 = some s1 :=
  ⟨⟨[1, 2, 3], repr_ofList (by decide)⟩,
    let ⟨s1, h1, h2, _⟩ :=
      Pop_idempotent (ofList [1, 2, 3]) ⟨[1, 2, 3], repr_ofList (by decide)⟩ (some 2)
    ⟨s1, h1, h2⟩⟩

/-- C10: in every state, `Pop(nullptr)`, `Swap` with a null argument,
`AddAfter` with a null argument and `AddBefore` with a null argument return
(no fault) and return the state unchanged. -/
theorem null_argument_noop (s : ListManager) (p : Ptr) :
    Pop none s = some s ∧
    Swap none p s = some s ∧ Swap p none s = some s ∧
    AddAfter none p s = some s ∧ AddAfter p none s = some s ∧
    AddBefore none p s = some s ∧ AddBefore p none s = some s := by
  refine ⟨?_, ?_, ?_, ?_, ?_, ?_, ?_⟩ <;> simp [Pop, Swap, AddAfter, AddBefore]

/-! The claims about sequences of calls and about `Swap`. -/

/-- C1 does not hold as stated: from the empty list, `AddTail(0)` twice leaves
chunk 0 as the head with itself as its prev, so the head's prev is not null. -/
theorem invariants_fail_after_repeated_AddTail :
    ∃ s, runOps [Op.addTail (some 0), Op.addTail (some 0)] ListManager.empty = some s ∧
      GetHead s = some 0 ∧ s.prev 0 = some 0 ∧ ¬ Inv s := by
  refine ⟨tailed 0 (tailed 0 ListManager.empty), ?_, by decide, by decide, ?_⟩
  · simp [runOps, runOp, AddTail_some]
  · intro h
    have := h.2.1 0 (by decide)
    revert this
    decide

/-- C1, amended: starting from the empty list with every chunk detached, for
any sequence of calls each made within its precondition (`AddTail` / `AddHead`
of a non-null chunk that is not in the list; `AddAfter` / `AddBefore` with a
null argument, or with a reference that is in the list and is not the inserted
chunk; `Pop` and `Swap` with any arguments), every call returns and after each
call the state is well-formed and the list invariants hold. -/
theorem invariants_after_each_call (ops : List Op)
    (h : okRun ops ListManager.empty = true) (k : Nat) :
    ∃ s, runOps (ops.take k) ListManager.empty = some s ∧ WellFormed s ∧ Inv s := by
  obtain ⟨s, e, L, hR⟩ := runOps_keeps (ops.take k) ⟨[], repr_empty⟩ (okRun_take ops k h)
  exact ⟨s, e, ⟨L, hR⟩, inv_of_repr hR⟩

/-- Witness of amended C1: a run using all six member functions. -/
theorem invariants_after_each_call_witness :
    okRun [Op.addTail (some 1), Op.addHead (some 0), Op.addAfter (some 2) (some 1),
        Op.addBefore (some 3) (some 2), Op.swap (some 2) (some 1), Op.pop (some 1),
        Op.addAfter (some 0) (some 2)] ListManager.empty = true ∧
    ∃ s, runOps ([Op.addTail (some 1), Op.addHead (some 0), Op.addAfter (some 2) (some 1),
        Op.addBefore (some 3) (some 2), Op.swap (some 2) (some 1), Op.pop (some 1),
        Op.addAfter (some 0) (some 2)].take 5) ListManager.empty = some s ∧
      WellFormed s ∧ Inv s :=
  ⟨by decide, invariants_after_each_call _ (by decide) 5⟩

/-- C2 at its failing input: on the well-formed list 0, 1, 2, `Swap(0, 2)`
(the head and a chunk not adjacent to it) leaves the list 1, 0 and chunk 2
detached, not the list 2, 1, 0. -/
theorem Swap_with_head_drops_chunk :
    Repr (ofList [0, 1, 2]) [0, 1, 2] ∧
    ∃ s', Swap (some 0) (some 2) (ofList [0, 1, 2]) = some s' ∧ Repr s' [1, 0] ∧
      GetHead s' = some 1 ∧ GetTail s' = some 0 ∧
      s'.next 2 = none ∧ s'.prev 2 = none ∧ InList s' 2 = false := by
  have h0 : Repr (ofList [0, 1, 2]) [0, 1, 2] := repr_ofList (by decide)
  have e1 : (popped 0 (ofList [0, 1, 2])).prev 2 = some 1 := by decide
  have e2 : (ofList [0, 1, 2]).prev 0 = none := by decide
  have hR : Repr (linkedAfter 0 1 (popped 0 (popped 2 (popped 0 (ofList [0, 1, 2])))))
      [1, 0] :=
    repr_AddAfter (repr_popped (repr_popped h0 0) 2) (c := 0) (r := 1)
      (by decide) (by decide)
  refine ⟨h0, _, ?_, hR, by decide, by decide, by decide, by decide, by decide⟩
  rw [Swap_general (by decide) (by decide), e1, e2, AddAfter_some]
  simp [AddAfter_none_ref]

/-- C3 at its failing input: on the well-formed list 0, 1, 2, `Swap(0, 2)`
twice leaves the list 1, 2 (head 1, chunk 0 detached), not the list
0, 1, 2 it started from. -/
theorem Swap_twice_with_head_not_restored :
    Repr (ofList [0, 1, 2]) [0, 1, 2] ∧
    ∃ s1 s2, Swap (some 0) (some 2) (ofList [0, 1, 2]) = some s1 ∧
      Swap (some 0) (some 2) s1 = some s2 ∧ Repr s2 [1, 2] ∧
      GetHead s2 = some 1 ∧ GetTail s2 = some 2 ∧ InList s2 0 = false := by
  have h0 : Repr (ofList [0, 1, 2]) [0, 1, 2] := repr_ofList (by decide)
  have e1 : (popped 0 (ofList [0, 1, 2])).prev 2 = some 1 := by decide
  have e2 : (ofList [0, 1, 2]).prev 0 = none := by decide
  have hR : Repr (linkedAfter 0 1 (popped 0 (popped 2 (popped 0 (ofList [0, 1, 2])))))
      [1, 0] :=
    repr_AddAfter (repr_popped (repr_popped h0 0) 2) (c := 0) (r := 1)
      (by decide) (by decide)
  have e3 : (popped 0 (linkedAfter 0 1 (popped 0 (popped 2 (popped 0
      (ofList [0, 1, 2])))))).prev 2 = none := by decide
  have e4 : (linkedAfter 0 1 (popped 0 (popped 2 (popped 0
      (ofList [0, 1, 2]))))).prev 0 = some 1 := by decide
  have hR2 : Repr (linkedAfter 2 1 (popped 2 (popped 2 (popped 0 (linkedAfter 0 1
      (popped 0 (popped 2 (popped 0 (ofList [0, 1, 2]))))))))) [1, 2] :=
    repr_AddAfter (repr_popped (repr_popped hR 0) 2) (c := 2) (r := 1)
      (by decide) (by decide)
  refine ⟨h0, linkedAfter 0 1 (popped 0 (popped 2 (popped 0 (ofList [0, 1, 2])))), _,
    ?_, ?_, hR2, by decide, by decide, by decide⟩
  · rw [Swap_general (by decide) (by decide), e1, e2, AddAfter_some]
    simp [AddAfter_none_ref]
  · rw [Swap_general (by decide) (by decide), e3, e4, AddAfter_none_ref]
    simp [AddAfter_some]

/-! The remaining claims about the list manager. -/

/-- C11 at its failing input: in every state `AddTail(nullptr)` and
`AddHead(nullptr)` fault, because their first statement writes through the
null pointer; they are not no-ops. -/
theorem push_null_faults (s : ListManager) :
    AddTail none s = none ∧ AddHead none s = none := by
  constructor <;> rfl

theorem iterate_GetNext {s : ListManager} {L : List Nat} (h : Repr s L) (k : Nat) :
    (GetNext s)^[k] (GetHead s) = L.get? k := by
  induction k with
  | zero =>
    simp only [Function.iterate_zero, id_eq, GetHead, h.2.1]
    cases L <;> rfl
  | succ k ih =>
    rw [Function.iterate_succ_apply', ih]
    by_cases hk : k < L.length
    · rw [List.get?_eq_get hk]
      exact (h.2.2.2.1 k hk).1
    · have h1 : L.get? k = none := List.get?_eq_none.mpr (by omega)
      have h2 : L.get? (k + 1) = none := List.get?_eq_none.mpr (by omega)
      rw [h1, h2]; rfl

/-- C12: the queries return a pointer only (no state is produced, so they have
no side effect); `GetNext(nullptr)` and `GetPrev(nullptr)` are null; on a
well-formed list with sequence `c_0 .. c_{n-1}`, `GetHead` is `c_0` and
`GetTail` is `c_{n-1}` (null when the list is empty), `GetNext(c_i)` is
`c_{i+1}` (null for the last chunk), `GetPrev(c_i)` is `c_{i-1}` (null for the
first chunk), and following `GetNext` from `GetHead` `k` times reaches `c_k`,
and null from `k = n` on. -/
theorem queries_follow_sequence (s : ListManager) (L : List Nat) (h : Repr s L) :
    GetNext s none = none ∧ GetPrev s none = none ∧
    GetHead s = L.get? 0 ∧ GetTail s = L.get? (L.length - 1) ∧
    (L = [] → GetHead s = none ∧ GetTail s = none) ∧
    (∀ i, ∀ hi : i < L.length,
      GetNext s (some (L.get ⟨i, hi⟩)) = L.get? (i + 1) ∧
      GetPrev s (some (L.get ⟨i, hi⟩)) = if i = 0 then none else L.get? (i - 1)) ∧
    (∀ i, i + 1 = L.length → GetNext s (L.get? i) = none) ∧
    (∀ k, (GetNext s)^[k] (GetHead s) = L.get? k) ∧
    (∀ k, L.length ≤ k → (GetNext s)^[k] (GetHead s) = none) := by
  have hh : GetHead s = L.get? 0 := by
    simp only [GetHead, h.2.1]; cases L <;> rfl
  have ht : GetTail s = L.get? (L.length - 1) := by
    simp only [GetTail, h.2.2.1]
    rw [List.getLast?_eq_getElem?]
    simp
  refine ⟨rfl, rfl, hh, ht, ?_, fun i hi => h.2.2.2.1 i hi, ?_, iterate_GetNext h, ?_⟩
  · intro hL; subst hL
    exact ⟨hh, ht⟩
  · intro i hi
    have hlt : i < L.length := by omega
    rw [List.get?_eq_get hlt]
    have := (h.2.2.2.1 i hlt).1
    rw [GetNext, this]
    exact List.get?_eq_none.mpr (by omega)
  · intro k hk
    rw [iterate_GetNext h]
    exact List.get?_eq_none.mpr hk

/-- Witness of C12: the queries on the list 4, 7, 9. -/
theorem queries_follow_sequence_witness :
    Repr (ofList [4, 7, 9]) [4, 7, 9] ∧
    GetHead (ofList [4, 7, 9]) = some 4 ∧ GetTail (ofList [4, 7, 9]) = some 9 ∧
    (GetNext (ofList [4, 7, 9]))^[2] (GetHead (ofList [4, 7, 9])) = some 9 ∧
    (GetNext (ofList [4, 7, 9]))^[3] (GetHead (ofList [4, 7, 9])) = none :=
  have h := queries_follow_sequence (ofList [4, 7, 9]) [4, 7, 9] (repr_ofList (by decide))
  ⟨repr_ofList (by decide), h.2.2.1, h.2.2.2.1, h.2.2.2.2.2.2.2.1 2, h.2.2.2.2.2.2.2.1 3⟩

theorem repr_unique {s1 s2 : ListManager} {L : List Nat} (h1 : Repr s1 L)
    (h2 : Repr s2 L) : s1 = s2 := by
  obtain ⟨_, f1, l1, n1, p1⟩ := (repr_iff_threads _ _).mp h1
  obtain ⟨_, f2, l2, n2, p2⟩ := (repr_iff_threads _ _).mp h2
  exact ListManager.ext_links (f1.trans f2.symm) (l1.trans l2.symm)
    (fun x => (n1 x).trans (n2 x).symm) (fun x => (p1 x).trans (p2 x).symm)

theorem erase_append_cons {c : Nat} {l : List Nat} (hc : c ∉ l) (r : List Nat) :
    (l ++ c :: r).erase c = l ++ r := by
  rw [List.erase_append_right _ hc, List.erase_cons_head]

theorem insertAfter_append_cons {r : Nat} {l : List Nat} (hr : r ∉ l) (c : Nat)
    (t : List Nat) : insertAfter r c (l ++ r :: t) = l ++ r :: c :: t := by
  induction l with
  | nil => simp [insertAfter]
  | cons a u ih =>
    simp only [List.mem_cons, not_or] at hr
    have ha : a ≠ r := fun e => hr.1 e.symm
    simp [insertAfter, ha, ih hr.2]

theorem insertBefore_append_cons {r : Nat} {l : List Nat} (hr : r ∉ l) (c : Nat)
    (t : List Nat) : insertBefore r c (l ++ r :: t) = l ++ c :: r :: t := by
  induction l with
  | nil => simp [insertBefore]
  | cons a u ih =>
    simp only [List.mem_cons, not_or] at hr
    have ha : a ≠ r := fun e => hr.1 e.symm
    simp [insertBefore, ha, ih hr.2]

theorem erase_insertAfter {r c : Nat} {L : List Nat} (hc : c ∉ L) (hr : r ∈ L) :
    (insertAfter r c L).erase c = L := by
  obtain ⟨l1, l2, h1, _, h3⟩ := insertAfter_eq_append (c := c) hr
  rw [h3]
  have hc1 : c ∉ l1 ++ [r] := by
    rw [h1] at hc
    simp only [List.mem_append, List.mem_cons, not_or] at hc
    simp [hc.1, hc.2.1]
  have := erase_append_cons hc1 l2
  simp only [List.append_assoc, List.singleton_append] at this
  rw [this, h1]

theorem erase_insertBefore {r c : Nat} {L : List Nat} (hc : c ∉ L) (hr : r ∈ L) :
    (insertBefore r c L).erase c = L := by
  obtain ⟨l1, l2, h1, _, h3⟩ := insertBefore_eq_append (c := c) hr
  rw [h3]
  have hc1 : c ∉ l1 := by
    rw [h1] at hc
    simp only [List.mem_append, not_or] at hc
    exact hc.1
  rw [erase_append_cons hc1, h1]

/-- C17: on a well-formed list with sequence `L`, each call made within its
precondition returns a well-formed list: `Pop` and `Swap` with any pointer
arguments, `AddAfter(c, ref)` and `AddBefore(c, ref)` with `ref` in `L` and `c`
other than `ref`, `AddTail(c)` and `AddHead(c)` with `c` not in `L`. -/
theorem wellFormed_preserved (s : ListManager) (L : List Nat) (h : Repr s L) :
    (∀ obj : Ptr, ∃ s', Pop obj s = some s' ∧ WellFormed s') ∧
    (∀ obj1 obj2 : Ptr, ∃ s', Swap obj1 obj2 s = some s' ∧ WellFormed s') ∧
    (∀ c ref : Nat, ref ∈ L → c ≠ ref →
      ∃ s', AddAfter (some c) (some ref) s = some s' ∧ WellFormed s') ∧
    (∀ c ref : Nat, ref ∈ L → c ≠ ref →
      ∃ s', AddBefore (some c) (some ref) s = some s' ∧ WellFormed s') ∧
    (∀ c : Nat, c ∉ L → ∃ s', AddTail (some c) s = some s' ∧ WellFormed s') ∧
    (∀ c : Nat, c ∉ L → ∃ s', AddHead (some c) s = some s' ∧ WellFormed s') := by
  refine ⟨fun obj => ?_, fun a b => Swap_keeps_wellFormed s ⟨L, h⟩ a b,
    fun c r hr hne => ⟨_, AddAfter_some c r s, _, repr_AddAfter h hr hne⟩,
    fun c r hr hne => ⟨_, AddBefore_some c r s, _, repr_AddBefore h hr hne⟩,
    fun c hc => ⟨_, AddTail_some c s, _, repr_tailed h hc⟩,
    fun c hc => ⟨_, AddHead_some c s, _, repr_headed h hc⟩⟩
  cases obj with
  | none => exact ⟨s, Pop_none s, L, h⟩
  | some c => exact ⟨_, Pop_some c s, _, repr_popped h c⟩

/-- Witness of C17: the six calls on the list 1, 2, 3. -/
theorem wellFormed_preserved_witness :
    Repr (ofList [1, 2, 3]) [1, 2, 3] ∧
    (∃ s', Pop (some 2) (ofList [1, 2, 3]) = some s' ∧ WellFormed s') ∧
    (∃ s', Swap (some 2) (some 3) (ofList [1, 2, 3]) = some s' ∧ WellFormed s') ∧
    (∃ s', AddAfter (some 1) (some 3) (ofList [1, 2, 3]) = some s' ∧ WellFormed s') ∧
    (∃ s', AddBefore (some 5) (some 1) (ofList [1, 2, 3]) = some s' ∧ WellFormed s') ∧
    (∃ s', AddTail (some 4) (ofList [1, 2, 3]) = some s' ∧ WellFormed s') ∧
    (∃ s', AddHead (some 0) (ofList [1, 2, 3]) = some s' ∧ WellFormed s') :=
  have h := wellFormed_preserved (ofList [1, 2, 3]) [1, 2, 3] (repr_ofList (by decide))
  ⟨repr_ofList (by decide), h.1 (some 2), h.2.1 (some 2) (some 3),
    h.2.2.1 1 3 (by decide) (by decide), h.2.2.2.1 5 1 (by decide) (by decide),
    h.2.2.2.2.1 4 (by decide), h.2.2.2.2.2 0 (by decide)⟩

/-- C19: on a well-formed list with sequence `L`, for `ref` in `L` and a chunk
`c` not in `L`, `AddAfter(c, ref)` followed by `Pop(c)` returns exactly the
original state (head, tail and every link), and so does `AddBefore(c, ref)`
followed by `Pop(c)`. -/
theorem insert_then_Pop_restores (s : ListManager) (L : List Nat) (c ref : Nat)
    (h : Repr s L) (hr : ref ∈ L) (hc : c ∉ L) :
    (AddAfter (some c) (some ref) s).bind (Pop (some c)) = some s ∧
    (AddBefore (some c) (some ref) s).bind (Pop (some c)) = some s := by
  have hne : c ≠ ref := fun e => hc (e ▸ hr)
  have he : L.erase c = L := List.erase_of_not_mem hc
  constructor
  · rw [AddAfter_some, Option.some_bind, Pop_some]
    have h1 := repr_popped (repr_AddAfter h hr hne) c
    rw [he, erase_insertAfter hc hr] at h1
    rw [repr_unique h1 h]
  · rw [AddBefore_some, Option.some_bind, Pop_some]
    have h1 := repr_popped (repr_AddBefore h hr hne) c
    rw [he, erase_insertBefore hc hr] at h1
    rw [repr_unique h1 h]

/-- Witness of C19: chunk 5 inserted next to chunk 2 of the list 1, 2, 3 and
popped again. -/
theorem insert_then_Pop_restores_witness :
    Repr (ofList [1, 2, 3]) [1, 2, 3] ∧ 2 ∈ [1, 2, 3] ∧ 5 ∉ [1, 2, 3] ∧
    (AddAfter (some 5) (some 2) (ofList [1, 2, 3])).bind (Pop (some 5)) =
      some (ofList [1, 2, 3]) ∧
    (AddBefore (some 5) (some 2) (ofList [1, 2, 3])).bind (Pop (some 5)) =
      some (ofList [1, 2, 3]) :=
  ⟨repr_ofList (by decide), by decide, by decide,
    insert_then_Pop_restores (ofList [1, 2, 3]) [1, 2, 3] 5 2 (repr_ofList (by decide))
      (by decide) (by decide)⟩

/-- C20 at its failing input: on the well-formed list 0, 1, 2, `Swap(0, 0)` of
the head with itself leaves the list 1, 2 with chunk 0 detached. -/
theorem Swap_head_with_itself_drops_it :
    Repr (ofList [0, 1, 2]) [0, 1, 2] ∧
    ∃ s', Swap (some 0) (some 0) (ofList [0, 1, 2]) = some s' ∧ Repr s' [1, 2] ∧
      GetHead s' = some 1 ∧ s'.next 0 = none ∧ s'.prev 0 = none ∧
      InList s' 0 = false := by
  have h0 : Repr (ofList [0, 1, 2]) [0, 1, 2] := repr_ofList (by decide)
  have e1 : (popped 0 (ofList [0, 1, 2])).prev 0 = none := by decide
  have e2 : (ofList [0, 1, 2]).prev 0 = none := by decide
  have hR : Repr (popped 0 (popped 0 (ofList [0, 1, 2]))) [1, 2] :=
    repr_popped (repr_popped h0 0) 0
  refine ⟨h0, _, ?_, hR, by decide, by decide, by decide, by decide⟩
  rw [Swap_general (by decide) (by decide), e1, e2, AddAfter_none_ref]
  simp [AddAfter_none_ref]

/-! Adjacent chunks and the adjacent branches of `Swap`. -/

theorem prevIn_append_cons {l r : List Nat} {c : Nat} (hL : (l ++ c :: r).Nodup) :
    prevIn (l ++ c :: r) c = l.getLast? := by
  induction l with
  | nil => simpa using prevIn_head hL rfl
  | cons a t ih =>
    have ht : (t ++ c :: r).Nodup := (List.nodup_cons.mp hL).2
    rw [List.cons_append, prevIn_cons, ih ht]
    cases t with
    | nil => simp
    | cons b u =>
      have hbc : b ≠ c := by
        intro e
        have := List.nodup_cons.mp ht
        subst e
        exact this.1 (by simp)
      simp [hbc]

theorem prevIn_decomp {L : List Nat} (hL : L.Nodup) {x y : Nat}
    (h : prevIn L y = some x) : ∃ l1 l2, L = l1 ++ x :: y :: l2 := by
  have hy : y ∈ L := by
    by_contra hn
    rw [prevIn_of_not_mem hn] at h
    cases h
  obtain ⟨l, r, e⟩ := List.append_of_mem hy
  subst e
  rw [prevIn_append_cons hL] at h
  have hne : l ≠ [] := fun e => by subst e; simp at h
  obtain ⟨l1, z, e2⟩ : ∃ l1 z, l = l1 ++ [z] := by
    refine ⟨l.dropLast, l.getLast hne, (List.dropLast_append_getLast hne).symm⟩
  subst e2
  simp at h
  subst h
  exact ⟨l1, r, by simp⟩

theorem exchange_of_not_mem {a b : Nat} {l : List Nat} (ha : a ∉ l) (hb : b ∉ l) :
    exchange a b l = l := by
  induction l with
  | nil => rfl
  | cons x t ih =>
    simp only [List.mem_cons, not_or] at ha hb
    have h1 : x ≠ a := fun e => ha.1 e.symm
    have h2 : x ≠ b := fun e => hb.1 e.symm
    have := ih ha.2 hb.2
    simp only [exchange] at this ⊢
    simp [h1, h2, this]

theorem exchange_append (a b : Nat) (l r : List Nat) :
    exchange a b (l ++ r) = exchange a b l ++ exchange a b r := by
  simp [exchange]

theorem exchange_cons (a b x : Nat) (l : List Nat) :
    exchange a b (x :: l) = (if x = a then b else if x = b then a else x) :: exchange a b l := by
  simp [exchange]

theorem exchange_comm (a b : Nat) (L : List Nat) : exchange a b L = exchange b a L := by
  simp only [exchange]
  apply List.map_congr_left
  intro x _
  by_cases h1 : x = a
  · subst h1
    by_cases h2 : x = b
    · subst h2; simp
    · simp [h2]
  · by_cases h2 : x = b
    · subst h2; simp [h1]
    · simp [h1, h2]

theorem adjacent_lists {l1 l2 : List Nat} {x y : Nat} (hL : (l1 ++ x :: y :: l2).Nodup) :
    insertBefore x y (((l1 ++ x :: y :: l2).erase y).erase y) = l1 ++ y :: x :: l2 ∧
    exchange x y (l1 ++ x :: y :: l2) = l1 ++ y :: x :: l2 := by
  have h := hL
  simp only [List.nodup_append, List.nodup_cons, List.mem_cons, not_or,
    List.disjoint_cons_right] at h
  obtain ⟨_, ⟨⟨hxy, hx2⟩, hy2, _⟩, hx1, hy1, _⟩ := h
  have hy1' : y ∉ l1 ++ [x] := by
    simp only [List.mem_append, List.mem_singleton, not_or]
    exact ⟨hy1, fun e => hxy e.symm⟩
  have e1 : (l1 ++ x :: y :: l2).erase y = l1 ++ x :: l2 := by
    have := erase_append_cons hy1' l2
    simpa using this
  have hy3 : y ∉ l1 ++ x :: l2 := by
    simp only [List.mem_append, List.mem_cons, not_or]
    exact ⟨hy1, fun e => hxy e.symm, hy2⟩
  constructor
  · rw [e1, List.erase_of_not_mem hy3, insertBefore_append_cons hx1]
  · have hyx : y ≠ x := fun e => hxy e.symm
    rw [exchange_append, exchange_cons, exchange_cons, exchange_of_not_mem hx1 hy1,
      exchange_of_not_mem hx2 hy2]
    simp [hyx]

theorem Swap_first {s : ListManager} {x y : Nat} (h1 : s.prev x = some y) :
    Swap (some x) (some y) s = some (linkedBefore x y (popped x (popped x s))) := by
  simp [Swap, ListManager.ldPrev, h1, Pop_some, AddBefore_some, bind, Option.bind]

theorem Swap_second {s : ListManager} {x y : Nat} (h1 : s.prev x ≠ some y)
    (h2 : s.prev y = some x) :
    Swap (some x) (some y) s = some (linkedBefore y x (popped y (popped y s))) := by
  simp [Swap, ListManager.ldPrev, h1, h2, Pop_some, AddBefore_some, bind, Option.bind]

theorem prevIn_no_two_cycle {L : List Nat} (hL : L.Nodup) {a b : Nat}
    (h : prevIn L b = some a) : prevIn L a ≠ some b := by
  intro h2
  obtain ⟨l1, l2, e⟩ := prevIn_decomp hL h
  subst e
  rw [prevIn_append_cons hL] at h2
  have hb : b ∈ l1 := List.mem_of_getLast?_eq_some h2
  simp only [List.nodup_append, List.nodup_cons, List.mem_cons, not_or,
    List.disjoint_cons_right] at hL
  exact hL.2.2.2.1 hb

/-- C15: on a well-formed list with sequence `L`, for chunks `a` and `b` that
are adjacent (`a.prev == b` or `b.prev == a`), given in either order and also
when one of them is the head or the tail, `Swap(a, b)` returns and leaves the
well-formed list whose sequence is `L` with the two adjacent chunks exchanged
and every other chunk where it was. -/
theorem Swap_adjacent_exchanges (s : ListManager) (L : List Nat) (a b : Nat)
    (h : Repr s L) (hadj : s.prev a = some b ∨ s.prev b = some a) :
    ∃ s', Swap (some a) (some b) s = some s' ∧ Repr s' (exchange a b L) ∧
      ∃ l1 l2 x y, ((x = a ∧ y = b) ∨ (x = b ∧ y = a)) ∧
        L = l1 ++ x :: y :: l2 ∧ exchange a b L = l1 ++ y :: x :: l2 := by
  obtain ⟨hL, _, _, _, hp⟩ := (repr_iff_threads s L).mp h
  have key : ∀ x y : Nat, s.prev y = some x →
      ∃ l1 l2, L = l1 ++ x :: y :: l2 ∧ exchange x y L = l1 ++ y :: x :: l2 ∧
        Repr (linkedBefore y x (popped y (popped y s))) (l1 ++ y :: x :: l2) := by
    intro x y hxy
    obtain ⟨l1, l2, e⟩ := prevIn_decomp hL (hp y ▸ hxy)
    subst e
    have hl := adjacent_lists hL
    have hx : x ∈ (l1 ++ x :: y :: l2).erase y := by
      have hne : x ≠ y := by
        intro e
        subst e
        exact prevIn_ne_self hL x (hp x ▸ hxy)
      exact (List.mem_erase_of_ne hne).mpr (by simp)
    have hyx : y ≠ x := by
      intro e
      subst e
      exact prevIn_ne_self hL y (hp y ▸ hxy)
    have hR := repr_AddBefore (repr_popped h y) hx hyx
    rw [hl.1] at hR
    exact ⟨l1, l2, rfl, hl.2, hR⟩
  rcases hadj with h1 | h2
  · obtain ⟨l1, l2, e1, e2, hR⟩ := key b a h1
    rw [exchange_comm] at e2
    exact ⟨_, Swap_first h1, e2 ▸ hR, l1, l2, b, a, Or.inr ⟨rfl, rfl⟩, e1, e2⟩
  · obtain ⟨l1, l2, e1, e2, hR⟩ := key a b h2
    have hn : s.prev a ≠ some b := by
      rw [hp]
      exact prevIn_no_two_cycle hL (hp b ▸ h2)
    exact ⟨_, Swap_second hn h2, e2 ▸ hR, l1, l2, a, b, Or.inl ⟨rfl, rfl⟩, e1, e2⟩

/-- Witness of C15: the head and its successor of the list 1, 2, 3, in both
argument orders. -/
theorem Swap_adjacent_exchanges_witness :
    Repr (ofList [1, 2, 3]) [1, 2, 3] ∧ (ofList [1, 2, 3]).prev 2 = some 1 ∧
    (∃ s', Swap (some 1) (some 2) (ofList [1, 2, 3]) = some s' ∧ Repr s' [2, 1, 3]) ∧
    (∃ s', Swap (some 2) (some 1) (ofList [1, 2, 3]) = some s' ∧ Repr s' [2, 1, 3]) :=
  ⟨repr_ofList (by decide), by decide,
    (let ⟨s', h1, h2, _⟩ :=
      Swap_adjacent_exchanges (ofList [1, 2, 3]) [1, 2, 3] 1 2 (repr_ofList (by decide))
        (Or.inr (by decide))
    ⟨s', h1, h2⟩),
    (let ⟨s', h1, h2, _⟩ :=
      Swap_adjacent_exchanges (ofList [1, 2, 3]) [1, 2, 3] 2 1 (repr_ofList (by decide))
        (Or.inl (by decide))
    ⟨s', h1, h2⟩)⟩

/-- C16 does not hold as stated: on the list 0, 1, where chunk 0 is the
previous of chunk 1, `Swap(0, 1)` leaves the list 1, 0, while `Pop(0)`
followed by `AddBefore(0, 1)` leaves the list 0, 1 as it was. -/
theorem Swap_is_not_detach_of_first :
    Repr (ofList [0, 1]) [0, 1] ∧ (ofList [0, 1]).prev 1 = some 0 ∧
    ∃ s1 s2, Swap (some 0) (some 1) (ofList [0, 1]) = some s1 ∧
      detachReinsertBefore (some 0) (some 1) (ofList [0, 1]) = some s2 ∧
      Repr s1 [1, 0] ∧ Repr s2 [0, 1] ∧ GetHead s1 = some 1 ∧ GetHead s2 = some 0 ∧
      Swap (some 0) (some 1) (ofList [0, 1]) ≠
        detachReinsertBefore (some 0) (some 1) (ofList [0, 1]) := by
  have h0 : Repr (ofList [0, 1]) [0, 1] := repr_ofList (by decide)
  have e1 : Swap (some 0) (some 1) (ofList [0, 1]) =
      some (linkedBefore 1 0 (popped 1 (popped 1 (ofList [0, 1])))) :=
    Swap_second (by decide) (by decide)
  have e2 : detachReinsertBefore (some 0) (some 1) (ofList [0, 1]) =
      some (linkedBefore 0 1 (popped 0 (popped 0 (ofList [0, 1])))) := by
    simp [detachReinsertBefore, Pop_some, AddBefore_some]
  have hR1 : Repr (linkedBefore 1 0 (popped 1 (popped 1 (ofList [0, 1])))) [1, 0] :=
    repr_AddBefore (repr_popped h0 1) (c := 1) (r := 0) (by decide) (by decide)
  have hR2 : Repr (linkedBefore 0 1 (popped 0 (popped 0 (ofList [0, 1])))) [0, 1] :=
    repr_AddBefore (repr_popped h0 0) (c := 0) (r := 1) (by decide) (by decide)
  refine ⟨h0, by decide, _, _, e1, e2, hR1, hR2, by decide, by decide, ?_⟩
  rw [e1, e2]
  intro h
  have := congrArg (fun o => o.map ListManager.first) h
  revert this
  decide

/-- C16, amended: on a well-formed list, when `a` is the previous of `b`,
`Swap(a, b)` returns the same state as detaching `b` and reinserting it
immediately before `a`, that is `Pop(b)` followed by `AddBefore(b, a)`; it is
when `b` is the previous of `a` that `Swap(a, b)` returns the same state as
`Pop(a)` followed by `AddBefore(a, b)`. -/
theorem Swap_adjacent_refines (s : ListManager) (L : List Nat) (a b : Nat)
    (h : Repr s L) :
    (s.prev b = some a →
      Swap (some a) (some b) s = detachReinsertBefore (some b) (some a) s) ∧
    (s.prev a = some b →
      Swap (some a) (some b) s = detachReinsertBefore (some a) (some b) s) := by
  obtain ⟨hL, _, _, _, hp⟩ := (repr_iff_threads s L).mp h
  constructor
  · intro h2
    have hn : s.prev a ≠ some b := by
      rw [hp]
      exact prevIn_no_two_cycle hL (hp b ▸ h2)
    rw [Swap_second hn h2]
    simp [detachReinsertBefore, Pop_some, AddBefore_some]
  · intro h1
    rw [Swap_first h1]
    simp [detachReinsertBefore, Pop_some, AddBefore_some]

/-- Witness of amended C16: the list 0, 1, 2 with `a = 0`, `b = 1` (first
part) and with `a = 1`, `b = 0` (second part). -/
theorem Swap_adjacent_refines_witness :
    Repr (ofList [0, 1, 2]) [0, 1, 2] ∧ (ofList [0, 1, 2]).prev 1 = some 0 ∧
    Swap (some 0) (some 1) (ofList [0, 1, 2]) =
      detachReinsertBefore (some 1) (some 0) (ofList [0, 1, 2]) ∧
    Swap (some 1) (some 0) (ofList [0, 1, 2]) =
      detachReinsertBefore (some 1) (some 0) (ofList [0, 1, 2]) :=
  ⟨repr_ofList (by decide), by decide,
    (Swap_adjacent_refines (ofList [0, 1, 2]) [0, 1, 2] 0 1
      (repr_ofList (by decide))).1 (by decide),
    (Swap_adjacent_refines (ofList [0, 1, 2]) [0, 1, 2] 1 0
      (repr_ofList (by decide))).2 (by decide)⟩

/-! The general branch of `Swap`. -/

theorem insertAfter_append_of_not_mem {r : Nat} {l : List Nat} (hr : r ∉ l) (c : Nat)
    (t : List Nat) : insertAfter r c (l ++ t) = l ++ insertAfter r c t := by
  induction l with
  | nil => rfl
  | cons a u ih =>
    simp only [List.mem_cons, not_or] at hr
    have ha : a ≠ r := fun e => hr.1 e.symm
    simp [insertAfter, ha, ih hr.2]

theorem insertAfter_cons_self (r c : Nat) (t : List Nat) :
    insertAfter r c (r :: t) = r :: c :: t := by
  simp [insertAfter]

theorem insertAfter_cons_of_ne {a r : Nat} (h : a ≠ r) (c : Nat) (t : List Nat) :
    insertAfter r c (a :: t) = a :: insertAfter r c t := by
  simp [insertAfter, h]

theorem general_lists {A B C : List Nat} {q u r v : Nat}
    (hL : (A ++ q :: u :: (B ++ r :: v :: C)).Nodup) :
    ((A ++ q :: u :: (B ++ r :: v :: C)).erase u).erase v = A ++ q :: (B ++ r :: C) ∧
    u ∉ A ++ q :: (B ++ r :: C) ∧ v ∉ A ++ q :: (B ++ r :: C) ∧
    insertAfter r u (A ++ q :: (B ++ r :: C)) = A ++ q :: (B ++ r :: u :: C) ∧
    insertAfter q v (A ++ q :: (B ++ r :: C)) = A ++ q :: v :: (B ++ r :: C) ∧
    insertAfter q v (A ++ q :: (B ++ r :: u :: C)) = A ++ q :: v :: (B ++ r :: u :: C) ∧
    insertAfter r u (A ++ q :: v :: (B ++ r :: C)) = A ++ q :: v :: (B ++ r :: u :: C) ∧
    exchange u v (A ++ q :: u :: (B ++ r :: v :: C)) = A ++ q :: v :: (B ++ r :: u :: C) ∧
    v ∉ A ++ q :: (B ++ r :: u :: C) ∧ u ∉ A ++ q :: v :: (B ++ r :: C) := by
  have h := hL
  simp only [List.nodup_append, List.nodup_cons, List.mem_cons, List.mem_append, not_or,
    List.disjoint_cons_right, List.disjoint_append_right] at h
  obtain ⟨_, ⟨⟨hqu, hqB, hqr, hqv, hqC⟩, ⟨huB, hur, huv, huC⟩, _, ⟨⟨hrv, hrC⟩, hvC, _⟩,
    hrB, hvB, _⟩, hqA, huA, _, hrA, hvA, _⟩ := h
  have huq : u ≠ q := fun e => hqu e.symm
  have hvq : v ≠ q := fun e => hqv e.symm
  have hvr : v ≠ r := fun e => hrv e.symm
  have hvu : v ≠ u := fun e => huv e.symm
  have hru : r ≠ u := fun e => hur e.symm
  refine ⟨?_, ?_, ?_, ?_, ?_, ?_, ?_, ?_, ?_, ?_⟩
  rotate_left 8
  · simp [hvA, hvB, hvC, hvq, hvr, hvu]
  · simp [huA, huB, huC, huq, hur, huv]
  · simp [List.erase_append, List.erase_cons, huA, hvA, huB, hvB, hqu, hqv, hrv, hur, hru,
      huq, hvq, hvr, hvu]
  · simp [huA, huB, huC, huq, hur]
  · simp [hvA, hvB, hvC, hvq, hvr]
  · rw [insertAfter_append_of_not_mem hrA, insertAfter_cons_of_ne hqr,
      insertAfter_append_of_not_mem hrB, insertAfter_cons_self]
  · rw [insertAfter_append_of_not_mem hqA, insertAfter_cons_self]
  · rw [insertAfter_append_of_not_mem hqA, insertAfter_cons_self]
  · rw [insertAfter_append_of_not_mem hrA, insertAfter_cons_of_ne hqr,
      insertAfter_cons_of_ne hvr, insertAfter_append_of_not_mem hrB, insertAfter_cons_self]
  · rw [exchange_append, exchange_cons, exchange_cons, exchange_append, exchange_cons,
      exchange_cons, exchange_of_not_mem huA hvA, exchange_of_not_mem huB hvB,
      exchange_of_not_mem huC hvC]
    simp [hqu, hqv, hru, hrv, hvu]

theorem two_prevIn_decomp {L : List Nat} (hL : L.Nodup) {a b p1 p2 : Nat}
    (h1 : prevIn L a = some p1) (h2 : prevIn L b = some p2) (hab : a ≠ b)
    (hn1 : p1 ≠ b) (hn2 : p2 ≠ a) :
    (∃ A B C, L = A ++ p1 :: a :: (B ++ p2 :: b :: C)) ∨
    (∃ A B C, L = A ++ p2 :: b :: (B ++ p1 :: a :: C)) := by
  obtain ⟨l1, R, e⟩ := prevIn_decomp hL h1
  subst e
  have hb : b ∈ l1 ++ p1 :: a :: R := by
    by_contra hn
    rw [prevIn_of_not_mem hn] at h2
    cases h2
  simp only [List.mem_append, List.mem_cons] at hb
  rcases hb with hb | hb | hb | hb
  · right
    obtain ⟨X, Y, e⟩ := List.append_of_mem hb
    subst e
    have hL' : (X ++ b :: (Y ++ p1 :: a :: R)).Nodup := by simpa using hL
    have e2 : X ++ b :: Y ++ p1 :: a :: R = X ++ b :: (Y ++ p1 :: a :: R) := by simp
    rw [e2, prevIn_append_cons hL'] at h2
    have hne : X ≠ [] := fun e => by subst e; simp at h2
    have hX := (List.dropLast_append_getLast hne).symm
    have hl : X.getLast hne = p2 := by
      rw [List.getLast?_eq_getLast _ hne] at h2
      exact Option.some.inj h2
    rw [hl] at hX
    refine ⟨X.dropLast, Y, R, ?_⟩
    rw [e2]
    conv_lhs => rw [hX]
    simp
  · exact absurd hb.symm hn1
  · exact absurd hb.symm hab
  · left
    obtain ⟨M, C, e⟩ := List.append_of_mem hb
    subst e
    have e2 : l1 ++ p1 :: a :: (M ++ b :: C) = (l1 ++ p1 :: a :: M) ++ b :: C := by simp
    have hL' : ((l1 ++ p1 :: a :: M) ++ b :: C).Nodup := by rw [← e2]; exact hL
    rw [e2, prevIn_append_cons hL'] at h2
    have hne : M ≠ [] := by
      intro e
      subst e
      simp at h2
      exact hn2 h2.symm
    have hM := (List.dropLast_append_getLast hne).symm
    have hl : M.getLast hne = p2 := by
      have e3 : (l1 ++ p1 :: a :: M).getLast? = M.getLast? := by
        rw [show l1 ++ p1 :: a :: M = (l1 ++ [p1, a]) ++ M by simp]
        rw [List.getLast?_append_of_ne_nil _ hne]
      rw [e3, List.getLast?_eq_getLast _ hne] at h2
      exact Option.some.inj h2
    rw [hl] at hM
    refine ⟨l1, M.dropLast, C, ?_⟩
    conv_lhs => rw [hM]
    simp

theorem Swap_general_repr {s : ListManager} {L : List Nat} (h : Repr s L)
    {a b p1 p2 : Nat} (h1 : s.prev a = some p1) (h2 : s.prev b = some p2)
    (hab : a ≠ b) (hn1 : p1 ≠ b) (hn2 : p2 ≠ a) :
    ∃ s', Swap (some a) (some b) s = some s' ∧
      Repr s' (insertAfter p1 b
        ((insertAfter p2 a (((L.erase a).erase b).erase a)).erase b)) := by
  obtain ⟨hL, _, _, hn, hp⟩ := (repr_iff_threads s L).mp h
  have hR1 := repr_popped h a
  have hR2 := repr_popped hR1 b
  have hp1L : p1 ∈ L := prevIn_mem (hp a ▸ h1)
  have hp2L : p2 ∈ L := prevIn_mem (hp b ▸ h2)
  have hp1a : p1 ≠ a := fun e => prevIn_ne_self hL a (by rw [← hp, h1, e])
  have hp2b : p2 ≠ b := fun e => prevIn_ne_self hL b (by rw [← hp, h2, e])
  have e1 : (popped a s).prev b = some p2 := by
    have hnx : nextIn L a ≠ some b := fun e => by
      have := prevIn_of_nextIn hL e
      rw [← hp, h2] at this
      exact hn2 (Option.some.inj this)
    have hba : b ≠ a := fun e => hab e.symm
    have := ((repr_iff_threads _ _).mp hR1).2.2.2.2 b
    rw [this, prevIn_erase hL, if_neg hba, if_neg hnx, ← hp, h2]
  have hp2K : p2 ∈ (L.erase a).erase b :=
    (List.mem_erase_of_ne hp2b).mpr ((List.mem_erase_of_ne hn2).mpr hp2L)
  have hR3 := repr_AddAfter hR2 hp2K (fun e => hn2 e.symm)
  have hp1M : p1 ∈ insertAfter p2 a (((L.erase a).erase b).erase a) := by
    have hp2K' : p2 ∈ ((L.erase a).erase b).erase a := (List.mem_erase_of_ne hn2).mpr hp2K
    refine mem_insertAfter hp2K' ((List.mem_erase_of_ne hp1a).mpr ?_)
    exact (List.mem_erase_of_ne hn1).mpr ((List.mem_erase_of_ne hp1a).mpr hp1L)
  have hR4 := repr_AddAfter hR3 hp1M (fun e => hn1 e.symm)
  refine ⟨_, ?_, hR4⟩
  have hx : s.prev a ≠ some b := by rw [h1]; exact fun e => hn1 (Option.some.inj e)
  have hy : s.prev b ≠ some a := by rw [h2]; exact fun e => hn2 (Option.some.inj e)
  rw [Swap_general hx hy, e1, h1, AddAfter_some, Option.some_bind, AddAfter_some]

/-- C18: on a well-formed list with sequence `L`, for distinct chunks `a` and
`b` that are not adjacent and both have a predecessor (neither is the head),
`Swap(a, b)` returns and leaves the well-formed list whose sequence is `L`
with `a` and `b` exchanged and every other chunk where it was, whichever of
the two comes first and also when one of them is the tail. -/
theorem Swap_general_exchanges (s : ListManager) (L : List Nat) (a b : Nat)
    (h : Repr s L) (hab : a ≠ b)
    (hna : s.prev a ≠ some b) (hnb : s.prev b ≠ some a)
    (hpa : s.prev a ≠ none) (hpb : s.prev b ≠ none) :
    ∃ s', Swap (some a) (some b) s = some s' ∧ Repr s' (exchange a b L) ∧
      a ∈ exchange a b L ∧ b ∈ exchange a b L ∧
      (exchange a b L).length = L.length ∧
      ∀ i, ∀ hi : i < L.length, (exchange a b L).get? i =
        some (if L.get ⟨i, hi⟩ = a then b else if L.get ⟨i, hi⟩ = b then a
          else L.get ⟨i, hi⟩) := by
  obtain ⟨hL, _, _, _, hp⟩ := (repr_iff_threads s L).mp h
  obtain ⟨p1, h1⟩ := Option.ne_none_iff_exists'.mp hpa
  obtain ⟨p2, h2⟩ := Option.ne_none_iff_exists'.mp hpb
  have hn1 : p1 ≠ b := fun e => hna (by rw [h1, e])
  have hn2 : p2 ≠ a := fun e => hnb (by rw [h2, e])
  obtain ⟨s', e, hR⟩ := Swap_general_repr h h1 h2 hab hn1 hn2
  have hseq : insertAfter p1 b
      ((insertAfter p2 a (((L.erase a).erase b).erase a)).erase b) = exchange a b L := by
    rcases two_prevIn_decomp hL (hp a ▸ h1) (hp b ▸ h2) hab hn1 hn2 with
      ⟨A, B, C, eL⟩ | ⟨A, B, C, eL⟩
    · subst eL
      obtain ⟨g1, g2, _, g4, _, g6, _, g8, g9, _⟩ := general_lists hL
      rw [g1, List.erase_of_not_mem g2, g4, List.erase_of_not_mem g9, g6, g8]
    · subst eL
      obtain ⟨g1, _, g3, _, g5, _, g7, g8, _, g10⟩ := general_lists hL
      rw [List.erase_comm a b (A ++ p2 :: b :: (B ++ p1 :: a :: C)), g1,
        List.erase_of_not_mem g3, g5, List.erase_of_not_mem g10, g7, exchange_comm, g8]
  rw [hseq] at hR
  have ha : a ∈ L := by
    by_contra hn
    rw [hp, prevIn_of_not_mem hn] at h1
    cases h1
  have hb : b ∈ L := by
    by_contra hn
    rw [hp, prevIn_of_not_mem hn] at h2
    cases h2
  refine ⟨s', e, hR, ?_, ?_, by simp [exchange], ?_⟩
  · simp only [exchange, List.mem_map]
    refine ⟨b, hb, ?_⟩
    have hba : b ≠ a := fun e => hab e.symm
    simp [hba]
  · simp only [exchange, List.mem_map]
    exact ⟨a, ha, by simp⟩
  · intro i hi
    simp [exchange, List.getElem?_eq_getElem hi]

/-- Witness of C18: chunks 2 and 4 of the list 1, 2, 3, 4 (chunk 4 is the
tail), in both argument orders. -/
theorem Swap_general_exchanges_witness :
    Repr (ofList [1, 2, 3, 4]) [1, 2, 3, 4] ∧
    (∃ s', Swap (some 2) (some 4) (ofList [1, 2, 3, 4]) = some s' ∧
      Repr s' [1, 4, 3, 2]) ∧
    (∃ s', Swap (some 4) (some 2) (ofList [1, 2, 3, 4]) = some s' ∧
      Repr s' [1, 4, 3, 2]) :=
  ⟨repr_ofList (by decide),
    (let ⟨s', h1, h2, _⟩ :=
      Swap_general_exchanges (ofList [1, 2, 3, 4]) [1, 2, 3, 4] 2 4
        (repr_ofList (by decide)) (by decide) (by decide) (by decide) (by decide)
        (by decide)
    ⟨s', h1, h2⟩),
    (let ⟨s', h1, h2, _⟩ :=
      Swap_general_exchanges (ofList [1, 2, 3, 4]) [1, 2, 3, 4] 4 2
        (repr_ofList (by decide)) (by decide) (by decide) (by decide) (by decide)
        (by decide)
    ⟨s', h1, h2⟩)⟩

/-- For a chunk with a predecessor, `Swap(a, a)` gives back the state it
started from (the general branch pops `a` and re-adds it after its former
predecessor); only the head is lost. -/
theorem Swap_self_of_prev {s : ListManager} {L : List Nat} (h : Repr s L) {a : Nat}
    (hpa : s.prev a ≠ none) : Swap (some a) (some a) s = some s := by
  obtain ⟨hL, _, _, _, hp⟩ := (repr_iff_threads s L).mp h
  obtain ⟨p1, h1⟩ := Option.ne_none_iff_exists'.mp hpa
  have hself : s.prev a ≠ some a := by rw [hp]; exact prevIn_ne_self hL a
  have hp1a : p1 ≠ a := fun e => hself (by rw [h1, e])
  have e1 : (popped a s).prev a = none := by simp [popped]
  obtain ⟨A, R, eL⟩ := prevIn_decomp hL (hp a ▸ h1)
  have hp1 : p1 ∈ (L.erase a).erase a := by
    have : p1 ∈ L := prevIn_mem (hp a ▸ h1)
    exact (List.mem_erase_of_ne hp1a).mpr ((List.mem_erase_of_ne hp1a).mpr this)
  have hR := repr_AddAfter (repr_popped (repr_popped h a) a) hp1 (fun e => hp1a e.symm)
  have hseq : insertAfter p1 a (((L.erase a).erase a).erase a) = L := by
    subst eL
    have hn := hL
    simp only [List.nodup_append, List.nodup_cons, List.mem_cons, not_or,
      List.disjoint_cons_right] at hn
    obtain ⟨_, ⟨⟨_, hp1R⟩, haR, _⟩, hp1A, haA, _⟩ := hn
    have haA' : a ∉ A ++ [p1] := by
      simp only [List.mem_append, List.mem_singleton, not_or]
      exact ⟨haA, fun e => hp1a e.symm⟩
    have e2 : (A ++ p1 :: a :: R).erase a = A ++ p1 :: R := by
      have := erase_append_cons haA' R
      simpa using this
    have haAR : a ∉ A ++ p1 :: R := by
      simp only [List.mem_append, List.mem_cons, not_or]
      exact ⟨haA, fun e => hp1a e.symm, haR⟩
    rw [e2, List.erase_of_not_mem haAR, List.erase_of_not_mem haAR,
      insertAfter_append_cons hp1A]
  rw [hseq] at hR
  rw [Swap_general hself hself, e1, h1, AddAfter_none_ref, Option.some_bind, AddAfter_some,
    repr_unique hR h]

end Uncrustify
